import Mathlib

/-!
# Verification of the Waggle task-graph, safety-guard, bus and adapter layers

Shallow embedding of the orchestration core (task graph with dependency
readiness, cycle detection and status updates; the safety guard's path
containment and command policy; the message bus; the worker adapters)
together with proofs of the specification properties.

Sources embedded:
* `internal/task/task.go` — `Task`, `TaskGraph`, `UpdateStatus`, `Ready`,
  `AllComplete`, `DetectCycles` / `detectCycleDFS` / `formatCycle`.
* `internal/safety/command_policy.go` — `Guard`, `CheckPath`, `isWithinDir`,
  `checkCommandPolicy`, `isHighConfidenceInvocation`, `hasFlag`, `hasArg`,
  `hasPrefixArg`, `matchesRule`, `isIndirectExecution`, `toLowerSet`,
  `EnforceCommandBlocking`, `normalizeSafetyConfig`.
* `internal/bus/bus.go` — `MessageBus.Publish` and the bounded history.
* the adapter layer's worker spawn and capped stream writer.

Machine integers do not overflow in any embedded routine (lengths and
counters only), so `Nat` is used throughout. Time instants are opaque `Nat`
values; the code only compares them.
-/

namespace Waggle

/-! ## Task model (`internal/task/task.go`) -/

/-- Task status, from the `Status` constants of `task.go`. -/
inductive Status where
  | pending
  | assigned
  | running
  | complete
  | failed
  | retrying
  | cancelled
deriving DecidableEq, Repr

/-- The fields of `Task` (`task.go` lines 42–64) that the graph operations
read or write.  Times are opaque instants (`Nat`). -/
structure Task where
  id          : String
  status      : Status
  description : String := ""
  context     : List (String × String) := []
  allowedPaths : List String := []
  startedAt   : Option Nat := none
  completedAt : Option Nat := none
  dependsOn   : List String := []
deriving DecidableEq, Repr

/-- `TaskGraph.tasks` is a map from id to task; embedded as a list of tasks
where lookup takes the first task with a matching id. -/
abbrev TaskGraph := List Task

/-- `TaskGraph.Get`: first task with the given id, if any. -/
def TaskGraph.get (g : TaskGraph) (id : String) : Option Task :=
  List.find? (fun t => t.id = id) g

/-- The status/timestamp mutation performed by `UpdateStatus` on the found
task (`task.go` lines 117–124). -/
def applyStatus (t : Task) (status : Status) (now : Nat) : Task :=
  let t := { t with status := status }
  match status with
  | .running => { t with startedAt := some now }
  | .complete | .failed | .cancelled => { t with completedAt := some now }
  | _ => t

/-- `TaskGraph.UpdateStatus` (`task.go` lines 109–134): error when the id is
unknown, otherwise overwrite the status and set the timestamps.  The map
update is embedded by rewriting every task carrying the id (a Go map holds
at most one). -/
def TaskGraph.updateStatus (g : TaskGraph) (id : String) (status : Status)
    (now : Nat) : Except String TaskGraph :=
  if g.any (fun t => t.id = id) then
    .ok (g.map (fun t => if t.id = id then applyStatus t status now else t))
  else
    .error ("task " ++ id ++ " not found")

/-- The readiness test of the `Ready` loop body (`task.go` lines 141–151):
status pending and every dependency resolving to an in-graph task with
status complete. -/
def TaskGraph.isReady (g : TaskGraph) (t : Task) : Bool :=
  t.status = Status.pending &&
    t.dependsOn.all (fun depID =>
      match g.get depID with
      | some dep => dep.status = Status.complete
      | none => false)

/-- `TaskGraph.Ready` (`task.go` lines 136–157). -/
def TaskGraph.ready (g : TaskGraph) : List Task :=
  g.filter (fun t => g.isReady t)

/-- `TaskGraph.AllComplete` (`task.go` lines 159–168): false as soon as some
task is neither complete nor cancelled, otherwise true iff the graph is
nonempty. -/
def TaskGraph.allComplete (g : TaskGraph) : Bool :=
  g.all (fun t => t.status = Status.complete || t.status = Status.cancelled)
    && (g.length > 0)

/-! ## C3: `Ready` with `retry_after` (spec-modelled) -/

/-- Modelled from the spec: the current vintage of `task.go` — the one with
the `RetryAfter` field, recorded as implemented ("Task retry with jittered
exponential backoff (`RetryAfter` field)") and absent from the source
snapshot, whose `task.go` is an earlier vintage — gives `Task` a
`retry_after` point-in-time and makes `Ready()` skip tasks whose
`retry_after` has not elapsed: "returns every task whose status is pending,
whose every listed dependency resolves to an in-graph task with
status=complete, and whose `retry_after` is in the past".  `TaskR` is that
task shape; times are opaque `Nat` instants. -/
structure TaskR where
  id         : String
  status     : Status
  retryAfter : Nat := 0
  dependsOn  : List String := []
deriving DecidableEq, Repr

/-- Modelled from the spec: graph lookup for the `RetryAfter` vintage. -/
def getR (g : List TaskR) (id : String) : Option TaskR :=
  List.find? (fun t => t.id = id) g

/-- Modelled from the spec: the readiness test of the current `Ready()` —
pending, every dependency an in-graph complete task, and the current time
at or past `retry_after` (a task whose `retry_after` is still in the
future is skipped). -/
def isReadyR (g : List TaskR) (now : Nat) (t : TaskR) : Bool :=
  t.status = Status.pending &&
    t.dependsOn.all (fun depID =>
      match getR g depID with
      | some dep => dep.status = Status.complete
      | none => false) &&
    t.retryAfter ≤ now

/-- Modelled from the spec: the current `Ready()` over the graph. -/
def readyR (g : List TaskR) (now : Nat) : List TaskR :=
  g.filter (fun t => isReadyR g now t)

/-! ## Safety guard: path containment (`command_policy.go` lines 275–427)

A canonical absolute path is embedded as its list of components (the
filesystem's symlink resolution performed by `canonicalPath` is outside the
program text; `CheckPath` is analysed on already-canonical paths, which is
the form the claim speaks about).  A component list is canonical when no
component is empty, `"."`, `".."`, or contains a separator. -/

/-- A path as its list of components; `["home","repo"]` renders as
`/home/repo`. -/
abbrev Comps := List String

/-- Rendering of a rooted component path as the slash-separated string. -/
def renderPath (p : Comps) : String :=
  "/" ++ String.intercalate "/" p

/-- One canonical component: nonempty, not a dot entry, no separator. -/
def canonComp (c : String) : Bool :=
  c ≠ "" && c ≠ "." && c ≠ ".." && c.data.all (fun ch => ch ≠ '/')

/-- Canonical component path. -/
def canonPath (p : Comps) : Bool :=
  p.all canonComp

/-- Length of the common component prefix, as computed by `filepath.Rel`
when it strips the shared leading elements of base and target. -/
def commonPrefixLen : Comps → Comps → Nat
  | a :: as, b :: bs => if a = b then commonPrefixLen as bs + 1 else 0
  | _, _ => 0

/-- `filepath.Rel(base, target)` on clean rooted paths: strip the common
prefix, then one `".."` per remaining base component followed by the rest
of the target.  The empty result is `filepath.Rel`'s `"."`. -/
def relComps (base target : Comps) : Comps :=
  let n := commonPrefixLen base target
  List.replicate (base.length - n) ".." ++ target.drop n

/-- `isWithinDir` (`command_policy.go` lines 377–389): containment holds iff
the relative path is `"."` (empty component list) or does not start with a
`".."` component (the source tests `rel == ".."` and
`strings.HasPrefix(rel, "../")`, which together are exactly a leading
`".."` component). -/
def isWithinDir (base target : Comps) : Bool :=
  match relComps base target with
  | [] => true
  | c :: _ => c ≠ ".."

/-- The guard as built by `NewGuard` (`command_policy.go` lines 275–303):
the canonicalised project root and allowed paths (already resolved; when no
allowed paths are configured, `resolvedPaths = [projectRoot]`). -/
structure GuardPaths where
  projectRoot   : Comps
  resolvedPaths : List Comps

/-- A path argument to `CheckPath`: absolute, or relative (to be joined
with the project root). -/
inductive PathInput where
  | abs (comps : Comps)
  | rel (comps : Comps)

/-- `Guard.CheckPath` (`command_policy.go` lines 307–323) on canonical
inputs: join a relative path with the project root, then accept iff some
resolved allowed path contains it.  `true` is accept (`nil` error). -/
def GuardPaths.checkPath (g : GuardPaths) (p : PathInput) : Bool :=
  let resolved := match p with
    | .abs cs => cs
    | .rel cs => g.projectRoot ++ cs
  g.resolvedPaths.any (fun allowed => isWithinDir allowed resolved)

/-! ## Safety guard: command policy (`command_policy.go` lines 18–256)

The shell parser (`mvdan.cc/sh`) is external; the policy is embedded as a
function of the parsed invocations of a script.  The ASCII fragments of
`strings.ToLower` / `strings.TrimSpace` / `strings.Fields` are embedded
directly; claims only involve ASCII configurations. -/

def SafetyModeStrict : String := "strict"

def SafetyModePermissive : String := "permissive"

/-- The safety configuration fields consumed by the policy
(`config.SafetyConfig`). -/
structure SafetyConfig where
  mode               : String := ""
  blockedExecutables : List String := []
  blockedPatterns    : List String := []
  blockedCommands    : List String := []
  allowExecutables   : List String := []
  enforceOnAdapters  : List String := []
deriving Repr

/-- ASCII `strings.ToLower`. -/
def lowerChar (ch : Char) : Char :=
  if 'A' ≤ ch ∧ ch ≤ 'Z' then Char.ofNat (ch.toNat + 32) else ch

def toLowerStr (s : String) : String := ⟨s.data.map lowerChar⟩

/-- ASCII whitespace for `strings.TrimSpace` / `strings.Fields`. -/
def isSpaceChar (ch : Char) : Bool :=
  ch = ' ' || ch = '\t' || ch = '\n' || ch = '\r'

def trimStr (s : String) : String :=
  ⟨((s.data.dropWhile isSpaceChar).reverse.dropWhile isSpaceChar).reverse⟩

/-- `strings.HasPrefix`. -/
def strHasPrefix (s pre : String) : Bool := pre.data.isPrefixOf s.data

/-- `toLowerSet` (`command_policy.go` lines 180–190): lower-cased trimmed
items, empties skipped; set membership is list membership. -/
def toLowerSet (items : List String) : List String :=
  (items.map (fun s => toLowerStr (trimStr s))).filter (fun s => s ≠ "")

/-- `commandInvocation` (`command_policy.go` lines 12–16); produced by
`parseCommandInvocations`, so `args` head is `name` and tokens are
lower-cased trimmed printed words. -/
structure CommandInvocation where
  name        : String
  args        : List String
  nameDynamic : Bool := false
deriving Repr

/-- `isIndirectExecution` (`command_policy.go` lines 192–204). -/
def isIndirectExecution (inv : CommandInvocation) : Bool :=
  match inv.args with
  | [] => false
  | name :: rest =>
    if name = "eval" ∨ name = "." ∨ name = "source" then true
    else if name = "sh" ∨ name = "bash" ∨ name = "zsh" ∨ name = "ksh" then
      match rest with
      | arg1 :: _ => arg1 = "-c"
      | [] => false
    else false

/-- `hasFlag` (`command_policy.go` lines 229–238). -/
def hasFlag (args flags : List String) : Bool :=
  args.any (fun a => flags.any (fun f => a = f))

/-- `hasArg` (`command_policy.go` lines 240–247). -/
def hasArg (args : List String) (value : String) : Bool :=
  args.any (fun a => a = value)

/-- `hasPrefixArg` (`command_policy.go` lines 249–256). -/
def hasPrefixArg (args : List String) (pre : String) : Bool :=
  args.any (fun a => strHasPrefix a pre)

/-- `isHighConfidenceInvocation` (`command_policy.go` lines 210–227): `rm`
with one of the flags `-rf`/`-fr`/`--no-preserve-root` and a literal `/`
argument; an executable whose name starts with `mkfs`; `dd` with an
argument beginning `if=/dev/zero`; or `sudo` followed by such an
invocation. -/
def isHighConfidenceInvocation : List String → Bool
  | [] => false
  | name :: rest =>
    if name = "rm" then
      hasFlag (name :: rest) ["-rf", "-fr", "--no-preserve-root"] &&
        hasArg (name :: rest) "/"
    else if strHasPrefix name "mkfs" then true
    else if name = "dd" then hasPrefixArg (name :: rest) "if=/dev/zero"
    else if name = "sudo" ∧ rest ≠ [] then isHighConfidenceInvocation rest
    else false

/-- `isHighConfidenceRule` (`command_policy.go` lines 206–208). -/
def isHighConfidenceRule (rule : List String) : Bool :=
  isHighConfidenceInvocation rule

/-- `matchesRule` (`command_policy.go` lines 168–178): the rule is a
nonempty token-wise prefix of the invocation. -/
def matchesRule (args rule : List String) : Bool :=
  if rule.length = 0 ∨ args.length < rule.length then false
  else (List.zip args rule).all (fun p => p.1 = p.2)

/-- `strings.Fields`: split on whitespace runs. -/
def fieldsAux : List Char → List Char → List String
  | [], acc => if acc = [] then [] else [⟨acc.reverse⟩]
  | ch :: rest, acc =>
    if isSpaceChar ch then
      if acc = [] then fieldsAux rest []
      else (⟨acc.reverse⟩ : String) :: fieldsAux rest []
    else fieldsAux rest (ch :: acc)

def fields (s : String) : List String := fieldsAux s.data []

/-- `parseRuleTokens` (`command_policy.go` lines 155–166), on the
whitespace-split path (the shell parse agrees on substitution-free
patterns). -/
def parseRuleTokens (pattern : String) : List String :=
  fields (toLowerStr (trimStr pattern))

/-- `buildBlockedRules` (`command_policy.go` lines 139–153). -/
def buildBlockedRules (cfg : SafetyConfig) : List (List String) :=
  ((cfg.blockedPatterns ++ cfg.blockedCommands).map parseRuleTokens).filter
    (fun r => r ≠ [])

/-- The blocked-rules loop of `checkCommandPolicy` (lines 67–75): the first
matching rule that is not carved out by permissive mode denies. -/
def checkRules (mode : String) (args : List String) :
    List (List String) → Option String
  | [] => none
  | rule :: rest =>
    if !matchesRule args rule then checkRules mode args rest
    else if mode = SafetyModePermissive && !isHighConfidenceInvocation args
        && !isHighConfidenceRule rule then
      checkRules mode args rest
    else some ("command matches blocked pattern: " ++ String.intercalate " " rule)

/-- The per-invocation body of `checkCommandPolicy`'s loop (lines 36–76).
`none` is allow (`continue`), `some` is the returned error. -/
def checkInvocation (cfg : SafetyConfig) (blockedExecs allowExecs : List String)
    (rules : List (List String)) (inv : CommandInvocation) : Option String :=
  if inv.args.length = 0 then none
  else
    let name := toLowerStr inv.name
    if name = "" ∨ inv.nameDynamic then
      if cfg.mode = SafetyModeStrict then
        some "dynamic command name is not allowed in strict mode"
      else none
    else if allowExecs.contains name then none
    else if isIndirectExecution inv then
      if cfg.mode = SafetyModeStrict then
        some ("indirect command execution is blocked in strict mode: " ++ name)
      else none
    else if blockedExecs.contains name then
      if cfg.mode = SafetyModePermissive
          && !isHighConfidenceInvocation inv.args then
        none
      else some ("command uses blocked executable: " ++ name)
    else checkRules cfg.mode inv.args rules

/-- `checkCommandPolicy` (lines 18–79) applied to the parsed invocations of
a non-empty script that parsed successfully: the first denying invocation
determines the error. -/
def checkCommandPolicy (cfg : SafetyConfig) :
    List CommandInvocation → Option String
  | [] => none
  | inv :: rest =>
    match checkInvocation cfg (toLowerSet cfg.blockedExecutables)
        (toLowerSet cfg.allowExecutables) (buildBlockedRules cfg) inv with
    | some e => some e
    | none => checkCommandPolicy cfg rest

/-! ## C6: command blocking at worker spawn -/

/-- `Guard.EnforceCommandBlocking` (`command_policy.go` lines 332–340):
case-insensitive trimmed membership of the adapter name in
`enforce_on_adapters`. -/
def enforceCommandBlocking (cfg : SafetyConfig) (adapterName : String) : Bool :=
  let name := toLowerStr (trimStr adapterName)
  cfg.enforceOnAdapters.any (fun allowed => toLowerStr (trimStr allowed) = name)

/-- The mode switch of `normalizeSafetyConfig` (`command_policy.go` lines
430–438): `""` and `strict` map to strict, `permissive` stays, anything
else falls back to strict. -/
def normalizeMode (cfg : SafetyConfig) : SafetyConfig :=
  let mode := toLowerStr (trimStr cfg.mode)
  if mode = "" ∨ mode = SafetyModeStrict then
    { cfg with mode := SafetyModeStrict }
  else if mode = SafetyModePermissive then
    { cfg with mode := SafetyModePermissive }
  else { cfg with mode := SafetyModeStrict }

/-- `normalizeSafetyConfig` (`command_policy.go` lines 429–446): invalid
modes fall back to strict, an empty `enforce_on_adapters` defaults to the
raw-shell adapter `["exec"]`, empty `blocked_patterns` inherit
`blocked_commands`. -/
def normalizeSafetyConfig (cfg : SafetyConfig) : SafetyConfig :=
  let cfg := normalizeMode cfg
  let cfg :=
    if cfg.enforceOnAdapters = [] then { cfg with enforceOnAdapters := ["exec"] }
    else cfg
  if cfg.blockedPatterns = [] then
    { cfg with blockedPatterns := cfg.blockedCommands }
  else cfg

/-- Worker status at the adapter layer (`worker` package). -/
inductive WorkerStatus where
  | idle
  | running
  | complete
  | failed
deriving DecidableEq, Repr

/-- `task.Result` as produced at spawn time. -/
structure WorkerResult where
  success : Bool
  output  : String := ""
  errors  : List String := []
deriving DecidableEq, Repr

/-- The observable outcome of a `Spawn` call: the worker status it leaves,
the result it records, and the error it returns to its caller. -/
structure SpawnOutcome where
  status   : WorkerStatus
  result   : Option WorkerResult
  spawnErr : Option String
deriving DecidableEq, Repr

/-- Modelled from the spec: `CLIWorker.Spawn` of the shared `CLIAdapter` is
missing from the snapshot — only the per-CLI constructors (`NewCodexAdapter`,
`NewKimiAdapter`, `NewOpenCodeAdapter`, the `CLIAdapter`-based
`NewExecAdapter`) and the guard tests remain.  Spec §4.4: the raw-shell
adapter's script is the task description (or `context["command"]`); "If
`EnforceCommandBlocking(adapter.name)` holds, call `CheckCommand(script)`
and fail the task synchronously on rejection."  The synchronous failure
shape — worker status failed, unsuccessful result carrying the reason,
`Spawn` returning nil — is that of the earlier-vintage `ShelleyWorker.Spawn`
retained in the snapshot.  The script's shell parse is external, so the
model receives the script's parsed invocations. -/
def spawnWithGuard (cfg : SafetyConfig) (adapterName : String)
    (scriptInvs : List CommandInvocation) : SpawnOutcome :=
  if enforceCommandBlocking cfg adapterName then
    match checkCommandPolicy cfg scriptInvs with
    | some reason =>
      { status := .failed,
        result := some { success := false,
                         errors := ["safety check failed: " ++ reason] },
        spawnErr := none }
    | none => { status := .running, result := none, spawnErr := none }
  else { status := .running, result := none, spawnErr := none }

/-! ## C7: bus publish is panic-safe (`bus.go` lines 101–140)

A handler mutates some shared state and may panic partway; `Publish` wraps
each handler invocation with a `recover` that observes the panic value and
lets the loop continue with whatever state the handler reached.  The model
makes that explicit: a handler returns the state it produced together with
an optional panic value, and the wrapped loop drops the panic value and
carries the state to the next handler, so panics never reach the caller of
`publish` (whose type has no panic component). -/

abbrev MsgType := String

/-- `bus.Message` (`bus.go` lines 26–32); the payload is opaque. -/
structure Message where
  type     : MsgType := ""
  taskID   : String := ""
  workerID : String := ""
  payload  : String := ""
  time     : Nat := 0
deriving DecidableEq, Repr

/-- A handler over shared state `σ`: the state it leaves and the panic
value `recover` observes, if any. -/
def Handler (σ : Type) := Message → σ → σ × Option String

/-- `MessageBus` (`bus.go` lines 55–61): per-type handler rows in
subscription order (`"*"` rows are the `SubscribeAll` wildcard), bounded
history. -/
structure MessageBus (σ : Type) where
  handlers : List (MsgType × Handler σ)
  history  : List Message
  maxHist  : Nat

/-- The handler list for one type, in subscription order (`b.handlers[t]`). -/
def handlersFor {σ : Type} (b : MessageBus σ) (τ : MsgType) : List (Handler σ) :=
  b.handlers.filterMap (fun p => if p.1 = τ then some p.2 else none)

/-- The history append-and-trim of `Publish` (`bus.go` lines 103–108): keep
the most recent `maxHist` entries. -/
def trimHistory (h : List Message) (maxHist : Nat) : List Message :=
  if h.length > maxHist then h.drop (h.length - maxHist) else h

/-- The wrapped handler loops of `Publish` (`bus.go` lines 120–139): each
handler runs inside a closure whose deferred `recover` swallows a panic,
so the loop always continues with the next handler. -/
def runHandlers {σ : Type} : List (Handler σ) → Message → σ → σ
  | [], _, s => s
  | h :: rest, msg, s => runHandlers rest msg (h msg s).1

/-- `MessageBus.Publish` (`bus.go` lines 101–140): record the message in
the bounded history, snapshot the specific and wildcard handlers, then run
them in order, each wrapped. -/
def publish {σ : Type} (b : MessageBus σ) (msg : Message) (s : σ) :
    MessageBus σ × σ :=
  let history := trimHistory (b.history ++ [msg]) b.maxHist
  let specific := handlersFor b msg.type
  let wildcard := handlersFor b "*"
  ({ b with history := history }, runHandlers (specific ++ wildcard) msg s)

def busDemoH1 : Handler (List String) := fun _ s => (s ++ ["h1"], none)

def busDemoBoom : Handler (List String) := fun _ s => (s ++ ["boom"], some "kaboom")

def busDemoH2 : Handler (List String) := fun _ s => (s ++ ["h2"], none)

def busDemo : MessageBus (List String) :=
  { handlers := [("task.created", busDemoH1), ("task.created", busDemoBoom),
                 ("*", busDemoH2)],
    history := [], maxHist := 2 }

def msgDemo : Message := { type := "task.created" }

/-! ## C9: the capped worker output writer (spec-modelled) -/

/-- Modelled from the spec: the capped `streamWriter`
(`newStreamWriter(mu, buf, cap)` with its `truncationMarker`) of the
current adapter layer is missing from the snapshot — only its tests
(`TestStreamWriterTruncation`, `TestStreamWriterExactCapHit`,
`TestStreamWriterUnlimited`) and an earlier uncapped vintage remain.  Spec
§4.4: "a single thread-safe writer that also enforces a byte cap: once the
cap is reached, a literal truncation marker is appended and subsequent
bytes are counted-but-dropped so `Write` remains a faithful io.Writer."
The exact marker literal is not in the snapshot; the claims depend only on
it being a fixed literal. -/
def truncationMarker : List Char := "\n[output truncated]".toList

/-- Modelled from the spec: writer state — the configured cap (`0` means
unlimited, per `TestStreamWriterUnlimited`), the captured bytes, and
whether truncation has occurred. -/
structure StreamWriter where
  cap       : Nat
  buf       : List Char := []
  truncated : Bool := false
deriving DecidableEq, Repr

/-- Modelled from the spec: `streamWriter.Write`.  After truncation bytes
are counted-but-dropped; under the cap bytes are appended; a write that
would exceed the cap keeps exactly the bytes up to the cap, appends the
marker once and flips the truncated flag.  The returned pair is Go's
`(n, err)`: always the full input length and nil. -/
def StreamWriter.write (w : StreamWriter) (p : List Char) :
    StreamWriter × Nat × Option String :=
  if w.truncated then (w, p.length, none)
  else if w.cap = 0 then ({ w with buf := w.buf ++ p }, p.length, none)
  else if w.buf.length + p.length ≤ w.cap then
    ({ w with buf := w.buf ++ p }, p.length, none)
  else
    let keep := w.cap - w.buf.length
    ({ w with buf := w.buf ++ p.take keep ++ truncationMarker,
              truncated := true }, p.length, none)

/-- A sequence of `Write` calls. -/
def writeAll (w : StreamWriter) : List (List Char) → StreamWriter
  | [] => w
  | p :: ps => writeAll (w.write p).1 ps

/-- The cap invariant: the cap is fixed; before truncation the buffer is
within the cap; after truncation the buffer is exactly cap bytes of
content followed by the marker. -/
def capInv (cap : Nat) (w : StreamWriter) : Prop :=
  w.cap = cap ∧
    (w.truncated = false → w.buf.length ≤ cap) ∧
    (w.truncated = true →
      ∃ content : List Char,
        w.buf = content ++ truncationMarker ∧ content.length = cap)

/-! ## C1: `DetectCycles` (`task.go` lines 192–268)

The DFS over the task graph.  The Go `visited` / `recStack` maps mutated in
place are threaded as `Finset String`; recursion is bounded by a fuel that
`DetectCycles` sets to `g.length + 1`, which is never exhausted because
every nested call is on an unvisited node and strictly grows `visited`
(the fuel-out branch returns the input state untouched). -/

/-- The graph's id set, in task order (`for id := range g.tasks`; the Go
map's iteration order is unspecified — the proved properties are
order-independent). -/
def gids (g : TaskGraph) : List String := g.map (fun t => t.id)

/-- How many graph ids are not yet visited; the DFS recursion measure. -/
def unvisitedCount (g : TaskGraph) (v : Finset String) : Nat :=
  ((gids g).filter (fun i => decide (i ∉ v))).length

mutual

/-- `detectCycleDFS` (`task.go` lines 215–256): mark the node visited and
on the recursion stack, append it to the path, then walk its
dependencies; pop the node from the stack before a cycle-free return. -/
def detectCycleDFS (g : TaskGraph) (fuel : Nat) (nodeID : String)
    (visited recStack : Finset String) (path : List String) :
    Option (List String) × Finset String × Finset String :=
  match fuel with
  | 0 => (none, visited, recStack)
  | fuel + 1 =>
    let visitedN := insert nodeID visited
    let recStackN := insert nodeID recStack
    let pathN := path ++ [nodeID]
    match g.get nodeID with
    | none => (none, visitedN, recStackN.erase nodeID)
    | some task =>
      match dfsDeps g fuel task.dependsOn visitedN recStackN pathN with
      | (some c, v, r) => (some c, v, r)
      | (none, v, r) => (none, v, r.erase nodeID)
termination_by (fuel, 0)

/-- The dependency loop of `detectCycleDFS` (`task.go` lines 226–252):
dependencies outside the graph are skipped; a dependency on the recursion
stack that occurs in the path closes the cycle `path[cycleStart:] ++
[depID]` (a stack hit outside the path falls through in the source, and
the dependency is then necessarily visited, so the loop continues — the
embedded condition combines the two nested tests); an unvisited dependency
recurses; anything else is ignored. -/
def dfsDeps (g : TaskGraph) (fuel : Nat) (deps : List String)
    (visited recStack : Finset String) (path : List String) :
    Option (List String) × Finset String × Finset String :=
  match deps with
  | [] => (none, visited, recStack)
  | depID :: rest =>
    if (g.get depID).isSome = false then
      dfsDeps g fuel rest visited recStack path
    else if depID ∈ recStack ∧ path.indexOf depID < path.length then
      (some (path.drop (path.indexOf depID) ++ [depID]), visited, recStack)
    else if depID ∉ visited then
      match detectCycleDFS g fuel depID visited recStack path with
      | (some c, v, r) => (some c, v, r)
      | (none, v, r) => dfsDeps g fuel rest v r path
    else dfsDeps g fuel rest visited recStack path
termination_by (fuel, deps.length + 1)

end

/-- The root loop of `DetectCycles` (`task.go` lines 203–209). -/
def detectCyclesLoop (g : TaskGraph) (fuel : Nat) :
    List String → Finset String → Finset String → Option (List String)
  | [], _, _ => none
  | id :: rest, visited, recStack =>
    if id ∉ visited then
      match detectCycleDFS g fuel id visited recStack [] with
      | (some c, _, _) => some c
      | (none, v, r) => detectCyclesLoop g fuel rest v r
    else detectCyclesLoop g fuel rest visited recStack

/-- `DetectCycles` (`task.go` lines 194–211), projected onto the cycle path
it reports (the returned error wraps it through `formatCycle`). -/
def TaskGraph.detectCyclesPath (g : TaskGraph) : Option (List String) :=
  detectCyclesLoop g (g.length + 1) (gids g) ∅ ∅

/-- `formatCycle` (`task.go` lines 259–268). -/
def formatCycle (cycle : List String) : String :=
  match cycle with
  | [] => ""
  | c :: rest => rest.foldl (fun acc id => acc ++ " -> " ++ id) c

/-- `DetectCycles`' returned error message, when a cycle is found. -/
def TaskGraph.detectCycles (g : TaskGraph) : Option String :=
  (g.detectCyclesPath).map
    (fun c => "circular dependency detected: " ++ formatCycle c)

/-- A dependency edge inside the graph: `u`'s task lists `v` and `v` is
itself in the graph (dependencies on missing ids are skipped by the DFS). -/
def EdgeB (g : TaskGraph) (u v : String) : Prop :=
  ∃ t, g.get u = some t ∧ v ∈ t.dependsOn ∧ (g.get v).isSome = true

/-- A closed walk along dependency edges: at least two entries, equal first
and last ids, and every adjacent pair an edge. -/
def IsCycleReport (g : TaskGraph) (c : List String) : Prop :=
  2 ≤ c.length ∧ c.head? = c.getLast? ∧ List.Chain' (EdgeB g) c

/-- The certificate carried through the completeness argument: the black
nodes (visited and off the stack) admit a rank strictly decreasing along
every in-graph dependency edge, and closed under such edges. -/
def BlackInv (g : TaskGraph) (v r : Finset String) : Prop :=
  ∃ rank : String → Nat,
    ∀ u ∈ v \ r, ∀ w, EdgeB g u w → w ∈ v \ r ∧ rank w < rank u

/-- The rank used when a node turns black: its dependencies' maximum rank
plus one. -/
def bumpRank (rank0 : String → Nat) (n : String) (b : Nat) : String → Nat :=
  fun x => if x = n then b + 1 else rank0 x

/-! ## Basic facts about `applyStatus` and `updateStatus` -/

theorem applyStatus_id (t : Task) (st : Status) (now : Nat) :
    (applyStatus t st now).id = t.id := by
  cases st <;> rfl

theorem applyStatus_status (t : Task) (st : Status) (now : Nat) :
    (applyStatus t st now).status = st := by
  cases st <;> rfl

theorem applyStatus_dependsOn (t : Task) (st : Status) (now : Nat) :
    (applyStatus t st now).dependsOn = t.dependsOn := by
  cases st <;> rfl

/-- `updateStatus` on an id present in the graph: the rewritten graph. -/
theorem updateStatus_ok (g : TaskGraph) (id : String) (st : Status) (now : Nat)
    (h : g.any (fun t => t.id = id) = true) :
    g.updateStatus id st now =
      .ok (g.map (fun t => if t.id = id then applyStatus t st now else t)) := by
  unfold TaskGraph.updateStatus
  simp [h]

/-! ## C10: `AllComplete` -/

/-- C10 — `AllComplete()` returns true iff the graph contains at least one
task and every task's status is complete or cancelled; in particular it
returns false for an empty graph, and cancelled tasks count toward
completion. -/
theorem allComplete_iff (g : TaskGraph) :
    g.allComplete = true ↔
      g ≠ [] ∧ ∀ t ∈ g, t.status = Status.complete ∨ t.status = Status.cancelled := by
  unfold TaskGraph.allComplete
  rw [Bool.and_eq_true, List.all_eq_true]
  constructor
  · rintro ⟨hall, hlen⟩
    refine ⟨?_, fun t ht => ?_⟩
    · intro h
      subst h
      simp at hlen
    · have := hall t ht
      rcases Bool.or_eq_true _ _ |>.mp this with h | h
      · exact Or.inl (by simpa using h)
      · exact Or.inr (by simpa using h)
  · rintro ⟨hne, hall⟩
    constructor
    · intro t ht
      rcases hall t ht with h | h <;> simp [h]
    · simpa [List.length_pos] using hne

/-! ## C2: `UpdateStatus` has no transition table -/

/-- C2 counterexample — `UpdateStatus` overwrites even a terminal status: on a
graph whose sole task `t` is complete, `UpdateStatus("t", pending)` succeeds
and leaves `t` pending, although the legal transition table admits no
transition out of `complete`. -/
theorem updateStatus_overwrites_terminal_cex :
    TaskGraph.updateStatus [{ id := "t", status := Status.complete }]
        "t" Status.pending 5
      = .ok [{ id := "t", status := Status.pending }] := by
  rfl

/-- C2 (amended) — `UpdateStatus(id, status)` enforces no transition table:
for every graph and every id present in it, the call succeeds for every
requested status, rewriting the task's status to exactly the requested one
(so a terminal status can be overwritten); the only failure is an unknown
id. -/
theorem updateStatus_no_transition_table (g : TaskGraph) (id : String)
    (st : Status) (now : Nat) (h : g.any (fun t => t.id = id) = true) :
    (g.updateStatus id st now =
        .ok (g.map (fun t => if t.id = id then applyStatus t st now else t)))
      ∧ (∀ g', g.updateStatus id st now = .ok g' →
          ∀ t ∈ g', t.id = id → t.status = st) := by
  refine ⟨updateStatus_ok g id st now h, ?_⟩
  intro g' hg' t ht hid
  rw [updateStatus_ok g id st now h] at hg'
  cases hg'
  rcases List.mem_map.mp ht with ⟨u, hu, hut⟩
  by_cases huid : u.id = id
  · simp only [huid, if_pos rfl] at hut
    rw [← hut]
    exact applyStatus_status u st now
  · simp only [if_neg huid] at hut
    rw [← hut] at hid
    exact absurd hid huid

/-- Witness for C2 (amended) at a concrete input. -/
theorem updateStatus_no_transition_table_witness :
    (List.any ([{ id := "t", status := Status.complete }] : TaskGraph)
        (fun t => t.id = "t") = true)
      ∧ ((TaskGraph.updateStatus [{ id := "t", status := Status.complete }]
            "t" Status.pending 5 =
          .ok (List.map
            (fun t => if t.id = "t" then applyStatus t Status.pending 5 else t)
            [{ id := "t", status := Status.complete }]))
        ∧ (∀ g', TaskGraph.updateStatus [{ id := "t", status := Status.complete }]
              "t" Status.pending 5 = .ok g' →
            ∀ t ∈ g', t.id = "t" → t.status = Status.pending)) :=
  ⟨by decide, updateStatus_no_transition_table
    [{ id := "t", status := Status.complete }] "t" Status.pending 5 (by decide)⟩

/-! ## C8: `Ready` is monotonic under completion -/

theorem get_map_id_preserving (g : TaskGraph) (f : Task → Task)
    (hf : ∀ t, (f t).id = t.id) (d : String) :
    TaskGraph.get (g.map f) d = (TaskGraph.get g d).map f := by
  induction g with
  | nil => rfl
  | cons a l ih =>
    by_cases ha : a.id = d
    · simp [TaskGraph.get, List.find?_cons, hf, ha]
    · simp only [TaskGraph.get, List.map_cons, List.find?_cons] at *
      rw [hf a]
      simp only [ha, decide_eq_true_eq, decide_eq_false ha] at *
      exact ih

/-- C8 — `Ready()` is monotonic under completion: after `UpdateStatus(tid,
complete)` succeeds, every task that was ready before and is not the
completed task itself (hence still pending) is still ready; completing a
task can only add tasks to the ready set. -/
theorem ready_monotone_under_completion (g g' : TaskGraph) (tid : String)
    (now : Nat) (hupd : g.updateStatus tid Status.complete now = .ok g')
    (t : Task) (ht : t ∈ g.ready) (hne : t.id ≠ tid) :
    t ∈ g'.ready := by
  have hany : g.any (fun u => u.id = tid) = true := by
    by_contra hno
    unfold TaskGraph.updateStatus at hupd
    simp [hno] at hupd
  rw [updateStatus_ok g tid Status.complete now hany] at hupd
  cases hupd
  have hfid : ∀ u : Task,
      ((if u.id = tid then applyStatus u Status.complete now else u) : Task).id
        = u.id := by
    intro u
    by_cases h : u.id = tid
    · simp [h, applyStatus_id]
    · simp [h]
  rcases List.mem_filter.mp ht with ⟨htg, hready⟩
  have hft : (if t.id = tid then applyStatus t Status.complete now else t) = t := by
    simp [hne]
  refine List.mem_filter.mpr ⟨?_, ?_⟩
  · have := List.mem_map_of_mem
      (fun u => if u.id = tid then applyStatus u Status.complete now else u) htg
    simp only [hne, if_false] at this
    simpa using this
  · unfold TaskGraph.isReady at hready ⊢
    rw [Bool.and_eq_true] at hready ⊢
    refine ⟨hready.1, ?_⟩
    rw [List.all_eq_true] at *
    intro d hd
    have hold := hready.2 d hd
    rw [get_map_id_preserving g _ hfid d]
    cases hget : TaskGraph.get g d with
    | none => rw [hget] at hold; simp at hold
    | some dep =>
      rw [hget] at hold
      rw [Option.map_some']
      by_cases hdep : dep.id = tid
      · simp [hdep, applyStatus_status]
      · simp only [hdep, if_false]
        exact hold

/-- Witness for C8: completing task `b` keeps the independently ready task
`a` in the ready set. -/
theorem ready_monotone_under_completion_witness :
    (TaskGraph.updateStatus
        [{ id := "a", status := Status.pending },
         { id := "b", status := Status.running }] "b" Status.complete 7 =
      .ok [{ id := "a", status := Status.pending },
           { id := "b", status := Status.complete, completedAt := some 7 }])
      ∧ ({ id := "a", status := Status.pending } : Task) ∈
          TaskGraph.ready
            [{ id := "a", status := Status.pending },
             { id := "b", status := Status.running }]
      ∧ ("a" : String) ≠ "b"
      ∧ ({ id := "a", status := Status.pending } : Task) ∈
          TaskGraph.ready
            [{ id := "a", status := Status.pending },
             { id := "b", status := Status.complete, completedAt := some 7 }] :=
  ⟨by rfl, by decide, by decide,
    ready_monotone_under_completion
      [{ id := "a", status := Status.pending },
       { id := "b", status := Status.running }]
      [{ id := "a", status := Status.pending },
       { id := "b", status := Status.complete, completedAt := some 7 }]
      "b" 7 (by rfl) { id := "a", status := Status.pending }
      (by decide) (by decide)⟩

/-- C3 — `Ready()` returns exactly the tasks that are pending, have all
listed dependencies resolving to in-graph complete tasks, and whose
`retry_after` has elapsed; in particular a pending task whose
`retry_after` lies in the future is not returned even when all its
dependencies are complete. -/
theorem readyR_characterisation (g : List TaskR) (now : Nat) (t : TaskR) :
    (t ∈ readyR g now ↔
        t ∈ g ∧ t.status = Status.pending ∧
        (∀ d ∈ t.dependsOn, ∃ dep, getR g d = some dep ∧
            dep.status = Status.complete) ∧
        t.retryAfter ≤ now)
      ∧ (now < t.retryAfter → t ∉ readyR g now) := by
  have hmain : t ∈ readyR g now ↔
      t ∈ g ∧ t.status = Status.pending ∧
      (∀ d ∈ t.dependsOn, ∃ dep, getR g d = some dep ∧
          dep.status = Status.complete) ∧
      t.retryAfter ≤ now := by
    unfold readyR isReadyR
    rw [List.mem_filter]
    constructor
    · rintro ⟨htg, hb⟩
      rw [Bool.and_eq_true, Bool.and_eq_true] at hb
      obtain ⟨⟨hst, hdeps⟩, hra⟩ := hb
      refine ⟨htg, by simpa using hst, ?_, by simpa using hra⟩
      intro d hd
      have := List.all_eq_true.mp hdeps d hd
      cases hget : getR g d with
      | none => rw [hget] at this; simp at this
      | some dep =>
        rw [hget] at this
        exact ⟨dep, rfl, by simpa using this⟩
    · rintro ⟨htg, hst, hdeps, hra⟩
      refine ⟨htg, ?_⟩
      rw [Bool.and_eq_true, Bool.and_eq_true]
      refine ⟨⟨by simpa using hst, ?_⟩, by simpa using hra⟩
      rw [List.all_eq_true]
      intro d hd
      rcases hdeps d hd with ⟨dep, hget, hdep⟩
      rw [hget]
      simpa using hdep
  refine ⟨hmain, ?_⟩
  intro hfut hmem
  have := (hmain.mp hmem).2.2.2
  omega

/-- Witness for C3: with the clock at 5, a pending dependency-free task with
`retry_after = 10` is not ready, and the same task with `retry_after = 3`
is. -/
theorem readyR_characterisation_witness :
    ((5 : Nat) < (10 : Nat)
      ∧ ({ id := "t", status := Status.pending, retryAfter := 10 } : TaskR) ∉
          readyR [{ id := "t", status := Status.pending, retryAfter := 10 }] 5)
    ∧ ({ id := "u", status := Status.pending, retryAfter := 3 } : TaskR) ∈
        readyR [{ id := "u", status := Status.pending, retryAfter := 3 }] 5 :=
  ⟨⟨by decide,
    (readyR_characterisation
      [{ id := "t", status := Status.pending, retryAfter := 10 }] 5
      { id := "t", status := Status.pending, retryAfter := 10 }).2
      (by decide)⟩,
   by decide⟩

/-- On paths with no `".."` components, `isWithinDir` is exactly
component-wise prefix: the boundary-safe containment check. -/
theorem isWithinDir_eq_isPrefixOf (base target : Comps)
    (htarget : target.all (fun c => c ≠ "..") = true) :
    isWithinDir base target = base.isPrefixOf target := by
  induction base generalizing target with
  | nil =>
    cases target with
    | nil => rfl
    | cons c cs =>
      have hc : c ≠ ".." := by
        have := List.all_eq_true.mp htarget c (List.mem_cons_self c cs)
        simpa using this
      simp [isWithinDir, relComps, commonPrefixLen, List.isPrefixOf, hc]
  | cons a as ih =>
    cases target with
    | nil =>
      simp [isWithinDir, relComps, commonPrefixLen, List.replicate_succ,
        List.isPrefixOf]
    | cons b bs =>
      by_cases hab : a = b
      · subst hab
        have hbs : bs.all (fun c => c ≠ "..") = true := by
          rw [List.all_cons] at htarget
          exact (Bool.and_eq_true _ _ |>.mp htarget).2
        have := ih bs hbs
        simpa [isWithinDir, relComps, commonPrefixLen, List.isPrefixOf]
          using this
      · simp [isWithinDir, relComps, commonPrefixLen, hab,
          List.replicate_succ, List.isPrefixOf]

theorem canonPath_no_dotdot (p : Comps) (h : canonPath p = true) :
    p.all (fun c => c ≠ "..") = true := by
  unfold canonPath at h
  rw [List.all_eq_true] at h ⊢
  intro c hc
  have := h c hc
  unfold canonComp at this
  simp only [Bool.and_eq_true] at this
  simpa using this.1.2

/-- C4 — for every allowed canonical root `r`: `CheckPath` accepts every
path inside `r` (absolute, or relative — first joined with the project
root); and with `r` the sole allowed root it rejects every canonical path
that does not extend `r` component-wise — in particular a sibling
directory whose name merely shares `r` as a string prefix (see the witness,
where the rendered root is a string prefix of the rendered sibling yet the
sibling is denied).  Containment is decided by the relative path being `"."`
or lacking a leading `".."` component, which on canonical paths is exactly
component-wise prefix (`isWithinDir_eq_isPrefixOf`). -/
theorem checkPath_root_containment (g : GuardPaths) (r : Comps)
    (hroot : canonPath r = true) :
    (∀ X : Comps, r ∈ g.resolvedPaths → canonPath X = true →
        g.checkPath (.abs (r ++ X)) = true)
      ∧ (∀ X : Comps, g.projectRoot = r → r ∈ g.resolvedPaths →
          canonPath X = true → g.checkPath (.rel X) = true)
      ∧ (∀ t : Comps, g.resolvedPaths = [r] → canonPath t = true →
          ¬ r.isPrefixOf t = true → g.checkPath (.abs t) = false) := by
  have habs : ∀ X : Comps, r ∈ g.resolvedPaths → canonPath X = true →
      g.checkPath (.abs (r ++ X)) = true := by
    intro X hmem hX
    unfold GuardPaths.checkPath
    rw [List.any_eq_true]
    refine ⟨r, hmem, ?_⟩
    have hall : (r ++ X).all (fun c => c ≠ "..") = true := by
      rw [List.all_append]
      exact Bool.and_eq_true _ _ |>.mpr
        ⟨canonPath_no_dotdot r hroot, canonPath_no_dotdot X hX⟩
    rw [isWithinDir_eq_isPrefixOf r (r ++ X) hall]
    exact List.isPrefixOf_iff_prefix.mpr (List.prefix_append r X)
  refine ⟨habs, ?_, ?_⟩
  · intro X hproj hmem hX
    have := habs X hmem hX
    unfold GuardPaths.checkPath at this ⊢
    simpa [hproj] using this
  · intro t hres ht hpre
    unfold GuardPaths.checkPath
    simp only [hres, List.any_cons, List.any_nil, Bool.or_false]
    rw [isWithinDir_eq_isPrefixOf r t (canonPath_no_dotdot t ht)]
    exact Bool.not_eq_true _ |>.mp hpre

/-- Witness for C4: with allowed root `/home/repo`, the inside path
`/home/repo/src/main.go` (and the relative `src/main.go`) is accepted,
while the sibling `/home/repo-sibling/x` is denied even though
`"/home/repo"` is a string prefix of `"/home/repo-sibling/x"`. -/
theorem checkPath_root_containment_witness :
    (GuardPaths.checkPath
        ⟨["home", "repo"], [["home", "repo"]]⟩
        (.abs (["home", "repo"] ++ ["src", "main.go"])) = true)
      ∧ (GuardPaths.checkPath
          ⟨["home", "repo"], [["home", "repo"]]⟩
          (.rel ["src", "main.go"]) = true)
      ∧ (GuardPaths.checkPath
          ⟨["home", "repo"], [["home", "repo"]]⟩
          (.abs ["home", "repo-sibling", "x"]) = false)
      ∧ (renderPath ["home", "repo"]).data.isPrefixOf
          (renderPath ["home", "repo-sibling", "x"]).data = true :=
  ⟨(checkPath_root_containment ⟨["home", "repo"], [["home", "repo"]]⟩
      ["home", "repo"] (by decide)).1 ["src", "main.go"]
      (by decide) (by decide),
   (checkPath_root_containment ⟨["home", "repo"], [["home", "repo"]]⟩
      ["home", "repo"] (by decide)).2.1 ["src", "main.go"] rfl
      (by decide) (by decide),
   (checkPath_root_containment ⟨["home", "repo"], [["home", "repo"]]⟩
      ["home", "repo"] (by decide)).2.2 ["home", "repo-sibling", "x"] rfl
      (by decide) (by decide),
   by decide⟩

/-- An indirect-execution invocation is never a high-confidence destructive
one: the indirection executables and the destructive executables are
disjoint. -/
theorem indirect_not_highConf (nm name : String) (rest : List String)
    (dyn : Bool) (h : isIndirectExecution ⟨nm, name :: rest, dyn⟩ = true) :
    isHighConfidenceInvocation (name :: rest) = false := by
  unfold isIndirectExecution at h
  simp only at h
  by_cases h1 : name = "eval" ∨ name = "." ∨ name = "source"
  · rcases h1 with h1 | h1 | h1 <;> subst h1 <;>
      simp [isHighConfidenceInvocation, strHasPrefix]
  · rw [if_neg h1] at h
    by_cases h2 : name = "sh" ∨ name = "bash" ∨ name = "zsh" ∨ name = "ksh"
    · rcases h2 with h2 | h2 | h2 | h2 <;> subst h2 <;>
        simp [isHighConfidenceInvocation, strHasPrefix]
    · rw [if_neg h2] at h
      exact absurd h (by simp)

/-- C5 counterexample — permissive mode with `rm` block-listed:
`rm --no-preserve-root /home` matches the claim's high-confidence form
`rm --no-preserve-root` yet is allowed (the code additionally requires a
literal `/` argument), while `rm -fr /` is outside the claim's enumerated
forms yet is denied (the code accepts `-fr` as well as `-rf`). -/
theorem permissive_blocklist_cex :
    (checkCommandPolicy { mode := "permissive", blockedExecutables := ["rm"] }
        [⟨"rm", ["rm", "--no-preserve-root", "/home"], false⟩] = none)
      ∧ (checkCommandPolicy { mode := "permissive", blockedExecutables := ["rm"] }
          [⟨"rm", ["rm", "-fr", "/"], false⟩] =
        some "command uses blocked executable: rm") := by
  constructor <;> decide

/-- C5 (amended) — in permissive mode, an invocation whose (statically
named, parser-lower-cased) executable is block-listed and not allow-listed
is allowed iff it is not a high-confidence destructive invocation, where
high-confidence is exactly `isHighConfidenceInvocation`: `rm` with one of
the flags `-rf`/`-fr`/`--no-preserve-root` together with a literal `/`
argument; an executable named `mkfs*`; `dd` with an argument beginning
`if=/dev/zero`; or `sudo` followed by one of these. -/
theorem permissive_blocklist_high_confidence (cfg : SafetyConfig)
    (inv : CommandInvocation)
    (hmode : cfg.mode = SafetyModePermissive)
    (hargs : inv.args.head? = some inv.name)
    (hlower : toLowerStr inv.name = inv.name)
    (hdyn : inv.nameDynamic = false)
    (hname : inv.name ≠ "")
    (hblocked : (toLowerSet cfg.blockedExecutables).contains inv.name = true)
    (hallow : (toLowerSet cfg.allowExecutables).contains inv.name = false) :
    checkCommandPolicy cfg [inv] = none ↔
      isHighConfidenceInvocation inv.args = false := by
  obtain ⟨nm, args, dyn⟩ := inv
  simp only at hargs hlower hdyn hname hblocked hallow
  cases args with
  | nil => simp at hargs
  | cons a rest =>
    have ha : a = nm := by
      simp only [List.head?] at hargs
      exact Option.some_inj.mp hargs
    subst ha
    subst hdyn
    have hsingle : checkCommandPolicy cfg [⟨a, a :: rest, false⟩] =
        checkInvocation cfg (toLowerSet cfg.blockedExecutables)
          (toLowerSet cfg.allowExecutables) (buildBlockedRules cfg)
          ⟨a, a :: rest, false⟩ := by
      unfold checkCommandPolicy
      cases h : checkInvocation cfg (toLowerSet cfg.blockedExecutables)
          (toLowerSet cfg.allowExecutables) (buildBlockedRules cfg)
          ⟨a, a :: rest, false⟩ with
      | some e => simp
      | none => simp [checkCommandPolicy]
    rw [hsingle]
    unfold checkInvocation
    simp only [hlower]
    rw [if_neg (by simp)]
    rw [if_neg (by simp [hname])]
    rw [if_neg (by simpa using hallow)]
    by_cases hind : isIndirectExecution ⟨a, a :: rest, false⟩ = true
    · rw [if_pos hind]
      rw [if_neg (by simp [hmode, SafetyModePermissive, SafetyModeStrict])]
      simp [indirect_not_highConf a a rest false hind]
    · rw [if_neg hind]
      rw [if_pos (by simpa using hblocked)]
      by_cases hhc : isHighConfidenceInvocation (a :: rest) = true
      · rw [if_neg (by simp [hhc])]
        simp [hhc]
      · simp only [Bool.not_eq_true] at hhc
        rw [if_pos (by simp [hmode, hhc])]
        simp [hhc]

/-- Witness for C5 (amended): permissive mode, `rm` block-listed — the
non-destructive `rm -rf /tmp/x` is allowed, the destructive `rm -rf /` is
not. -/
theorem permissive_blocklist_high_confidence_witness :
    (checkCommandPolicy { mode := "permissive", blockedExecutables := ["rm"] }
        [⟨"rm", ["rm", "-rf", "/tmp/x"], false⟩] = none)
      ∧ (checkCommandPolicy { mode := "permissive", blockedExecutables := ["rm"] }
          [⟨"rm", ["rm", "-rf", "/"], false⟩] ≠ none) :=
  ⟨(permissive_blocklist_high_confidence
      { mode := "permissive", blockedExecutables := ["rm"] }
      ⟨"rm", ["rm", "-rf", "/tmp/x"], false⟩ rfl rfl (by decide) rfl
      (by decide) (by decide) (by decide)).mpr (by decide),
   fun hnone =>
    absurd ((permissive_blocklist_high_confidence
      { mode := "permissive", blockedExecutables := ["rm"] }
      ⟨"rm", ["rm", "-rf", "/"], false⟩ rfl rfl (by decide) rfl
      (by decide) (by decide) (by decide)).mp hnone) (by decide)⟩

theorem normalizeMode_enforceOnAdapters (cfg : SafetyConfig) :
    (normalizeMode cfg).enforceOnAdapters = cfg.enforceOnAdapters := by
  simp only [normalizeMode]
  split_ifs <;> rfl

/-- C6 — at spawn time the blocklist check runs iff
`EnforceCommandBlocking(adapter name)` holds; `EnforceCommandBlocking` is
exactly membership of the (trimmed, lower-cased) adapter name in
`enforce_on_adapters`, which defaults to `["exec"]`; and a rejection fails
the task synchronously (status failed, unsuccessful result carrying the
reason) while `Spawn` itself returns no error. -/
theorem spawn_blocklist_gating (cfg : SafetyConfig) (a : String)
    (invs : List CommandInvocation) :
    (enforceCommandBlocking cfg a = false →
        spawnWithGuard cfg a invs =
          { status := .running, result := none, spawnErr := none })
      ∧ (enforceCommandBlocking cfg a = true →
          (∀ r, checkCommandPolicy cfg invs = some r →
              spawnWithGuard cfg a invs =
                { status := .failed,
                  result := some { success := false,
                                   errors := ["safety check failed: " ++ r] },
                  spawnErr := none })
            ∧ (checkCommandPolicy cfg invs = none →
                spawnWithGuard cfg a invs =
                  { status := .running, result := none, spawnErr := none }))
      ∧ (enforceCommandBlocking cfg a = true ↔
          toLowerStr (trimStr a) ∈
            cfg.enforceOnAdapters.map (fun s => toLowerStr (trimStr s)))
      ∧ (normalizeSafetyConfig
          { cfg with enforceOnAdapters := [] }).enforceOnAdapters = ["exec"] := by
  refine ⟨?_, ?_, ?_, ?_⟩
  · intro h
    unfold spawnWithGuard
    simp [h]
  · intro h
    constructor
    · intro r hr
      unfold spawnWithGuard
      simp [h, hr]
    · intro hnone
      unfold spawnWithGuard
      simp [h, hnone]
  · unfold enforceCommandBlocking
    rw [List.any_eq_true]
    constructor
    · rintro ⟨allowed, hmem, heq⟩
      rw [List.mem_map]
      exact ⟨allowed, hmem, by simpa using heq⟩
    · intro hmem
      rcases List.mem_map.mp hmem with ⟨allowed, hmem', heq⟩
      exact ⟨allowed, hmem', by simpa using heq⟩
  · unfold normalizeSafetyConfig
    have h1 : (normalizeMode { cfg with enforceOnAdapters := [] }).enforceOnAdapters
        = [] := by
      rw [normalizeMode_enforceOnAdapters]
    simp only [h1, if_pos]
    split_ifs <;> rfl

/-- Witness for C6: with a defaulted configuration (`enforce_on_adapters =
["exec"]`) and `rm` block-listed in strict mode, the raw-shell adapter
`exec` has the check applied — a `rm -rf /` script fails the task
synchronously with no `Spawn` error — while the `codex` adapter does not,
and the same script spawns. -/
theorem spawn_blocklist_gating_witness :
    (enforceCommandBlocking
        { mode := "strict", blockedExecutables := ["rm"],
          enforceOnAdapters := ["exec"] } "codex" = false
      ∧ spawnWithGuard
          { mode := "strict", blockedExecutables := ["rm"],
            enforceOnAdapters := ["exec"] } "codex"
          [⟨"rm", ["rm", "-rf", "/"], false⟩] =
        { status := .running, result := none, spawnErr := none })
    ∧ (enforceCommandBlocking
        { mode := "strict", blockedExecutables := ["rm"],
          enforceOnAdapters := ["exec"] } "exec" = true
      ∧ spawnWithGuard
          { mode := "strict", blockedExecutables := ["rm"],
            enforceOnAdapters := ["exec"] } "exec"
          [⟨"rm", ["rm", "-rf", "/"], false⟩] =
        { status := .failed,
          result :=
            some ⟨false, "",
              ["safety check failed: " ++ "command uses blocked executable: rm"]⟩,
          spawnErr := none })
    ∧ (normalizeSafetyConfig
        { mode := "strict", blockedExecutables := ["rm"],
          enforceOnAdapters := [] }).enforceOnAdapters = ["exec"] :=
  ⟨⟨by decide,
    (spawn_blocklist_gating
        { mode := "strict", blockedExecutables := ["rm"],
          enforceOnAdapters := ["exec"] } "codex"
        [⟨"rm", ["rm", "-rf", "/"], false⟩]).1 (by decide)⟩,
   ⟨by decide,
    ((spawn_blocklist_gating
        { mode := "strict", blockedExecutables := ["rm"],
          enforceOnAdapters := ["exec"] } "exec"
        [⟨"rm", ["rm", "-rf", "/"], false⟩]).2.1 (by decide)).1
      "command uses blocked executable: rm" (by decide)⟩,
   (spawn_blocklist_gating
      { mode := "strict", blockedExecutables := ["rm"],
        enforceOnAdapters := [] } "exec" []).2.2.2⟩

theorem runHandlers_append {σ : Type} (xs ys : List (Handler σ))
    (msg : Message) (s : σ) :
    runHandlers (xs ++ ys) msg s = runHandlers ys msg (runHandlers xs msg s) := by
  induction xs generalizing s with
  | nil => rfl
  | cons h rest ih => simp [runHandlers, ih]

/-- C7 — `Publish` is panic-safe: the message is recorded in the bounded
history no matter what the handlers do, and for every decomposition of the
subscribed handler sequence (specific-type handlers first, then wildcard)
around a handler `h`, every handler after `h` still executes, starting from
the state `h` reached, whether or not `h` panicked — the panic value is
swallowed by the per-handler wrapper and never reaches the caller of
`Publish`. -/
theorem publish_panic_safe {σ : Type} (b : MessageBus σ) (msg : Message)
    (s : σ) :
    ((publish b msg s).1.history = trimHistory (b.history ++ [msg]) b.maxHist)
      ∧ (∀ hs1 (h : Handler σ) hs2,
          handlersFor b msg.type ++ handlersFor b "*" = hs1 ++ h :: hs2 →
          (publish b msg s).2 =
            runHandlers hs2 msg ((h msg (runHandlers hs1 msg s)).1)) := by
  constructor
  · rfl
  · intro hs1 h hs2 hsplit
    show runHandlers (handlersFor b msg.type ++ handlersFor b "*") msg s = _
    rw [hsplit, runHandlers_append]
    rfl

/-- Witness for C7: with a panicking handler between two logging handlers,
all three run in order, the panic never escapes, and the message lands in
history. -/
theorem publish_panic_safe_witness :
    ((publish busDemo msgDemo ([] : List String)).1.history = [msgDemo])
      ∧ ((publish busDemo msgDemo ([] : List String)).2 =
          runHandlers [busDemoH2] msgDemo
            ((busDemoBoom msgDemo
              (runHandlers [busDemoH1] msgDemo ([] : List String))).1))
      ∧ ((publish busDemo msgDemo ([] : List String)).2 =
          ["h1", "boom", "h2"]) :=
  ⟨by rw [(publish_panic_safe busDemo msgDemo ([] : List String)).1]; rfl,
   (publish_panic_safe busDemo msgDemo ([] : List String)).2
     [busDemoH1] busDemoBoom [busDemoH2] rfl,
   by rfl⟩

theorem write_inv (cap : Nat) (hcap : 0 < cap) (w : StreamWriter)
    (p : List Char) (h : capInv cap w) : capInv cap (w.write p).1 := by
  obtain ⟨hc, hf, ht⟩ := h
  unfold StreamWriter.write
  by_cases htr : w.truncated = true
  · rw [if_pos htr]
    exact ⟨hc, hf, ht⟩
  · rw [if_neg htr]
    rw [if_neg (by omega)]
    rw [Bool.not_eq_true] at htr
    have hlen := hf htr
    by_cases hfit : w.buf.length + p.length ≤ w.cap
    · rw [if_pos hfit]
      refine ⟨hc, ?_, ?_⟩
      · intro _
        simp only [List.length_append]
        omega
      · intro hcontr
        simp [htr] at hcontr
    · rw [if_neg hfit]
      refine ⟨hc, ?_, ?_⟩
      · intro hcontr
        simp at hcontr
      · intro _
        refine ⟨w.buf ++ p.take (w.cap - w.buf.length), by simp, ?_⟩
        simp only [List.length_append, List.length_take]
        omega

theorem writeAll_inv (cap : Nat) (hcap : 0 < cap) (w : StreamWriter)
    (ps : List (List Char)) (h : capInv cap w) : capInv cap (writeAll w ps) := by
  induction ps generalizing w with
  | nil => exact h
  | cons p rest ih => exact ih (w.write p).1 (write_inv cap hcap w p h)

/-- C9 — the worker output writer enforces the byte cap: every `Write`
reports the full input length with no error; after any sequence of writes
the captured buffer never exceeds the cap plus the marker length; once
truncation occurs the buffer is exactly the cap's worth of content
followed by the marker appended once, and every subsequent write leaves
the buffer untouched while still reporting the input as consumed. -/
theorem streamWriter_cap (cap : Nat) (hcap : 0 < cap)
    (ps : List (List Char)) :
    (∀ (w : StreamWriter) (p : List Char),
        (w.write p).2.1 = p.length ∧ (w.write p).2.2 = none)
      ∧ (writeAll { cap := cap } ps).buf.length ≤ cap + truncationMarker.length
      ∧ ((writeAll { cap := cap } ps).truncated = false →
          (writeAll { cap := cap } ps).buf.length ≤ cap)
      ∧ ((writeAll { cap := cap } ps).truncated = true →
          (∃ content : List Char,
              (writeAll { cap := cap } ps).buf = content ++ truncationMarker ∧
              content.length = cap)
            ∧ ∀ q : List Char,
                ((writeAll { cap := cap } ps).write q).1 =
                  writeAll { cap := cap } ps) := by
  have hinv : capInv cap (writeAll { cap := cap } ps) :=
    writeAll_inv cap hcap { cap := cap } ps
      ⟨rfl, fun _ => by simp, fun hcontr => by simp at hcontr⟩
  obtain ⟨hc, hf, ht⟩ := hinv
  refine ⟨?_, ?_, hf, ?_⟩
  · intro w p
    unfold StreamWriter.write
    split_ifs <;> exact ⟨rfl, rfl⟩
  · by_cases htr : (writeAll { cap := cap } ps).truncated = true
    · rcases ht htr with ⟨content, hbuf, hlen⟩
      rw [hbuf]
      simp only [List.length_append]
      omega
    · rw [Bool.not_eq_true] at htr
      have := hf htr
      omega
  · intro htr
    refine ⟨ht htr, ?_⟩
    intro q
    unfold StreamWriter.write
    rw [if_pos htr]

/-- Witness for C9: cap 5, writes of 3, 4 and 1 bytes — the second write
truncates (keeping `aaabb`), the third is dropped, and the buffer stays at
cap plus marker length. -/
theorem streamWriter_cap_witness :
    (0 : Nat) < 5
      ∧ (writeAll { cap := 5 }
          [['a', 'a', 'a'], ['b', 'b', 'b', 'b'], ['c']]).buf.length ≤
        5 + truncationMarker.length
      ∧ (writeAll { cap := 5 }
          [['a', 'a', 'a'], ['b', 'b', 'b', 'b'], ['c']]).buf =
        ['a', 'a', 'a', 'b', 'b'] ++ truncationMarker :=
  ⟨by decide,
   (streamWriter_cap 5 (by decide)
     [['a', 'a', 'a'], ['b', 'b', 'b', 'b'], ['c']]).2.1,
   by rfl⟩

/-- Monotonicity: the DFS only ever grows the visited set. -/
theorem dfs_mono (g : TaskGraph) (fuel : Nat) :
    (∀ n v r p, v ⊆ (detectCycleDFS g fuel n v r p).2.1)
      ∧ (∀ deps v r p, v ⊆ (dfsDeps g fuel deps v r p).2.1) := by
  induction fuel with
  | zero =>
    have hdfs : ∀ n v r p,
        v ⊆ (detectCycleDFS g 0 n v r p).2.1 := by
      intro n v r p
      rw [detectCycleDFS]
    have hloop : ∀ deps v r p,
        v ⊆ (dfsDeps g 0 deps v r p).2.1 := by
      intro deps
      induction deps with
      | nil => intro v r p; rw [dfsDeps]
      | cons d rest ih =>
        intro v r p
        rw [dfsDeps]
        by_cases h1 : (g.get d).isSome = false
        · rw [if_pos h1]; exact ih v r p
        · rw [if_neg h1]
          by_cases h2 : d ∈ r ∧ p.indexOf d < p.length
          · rw [if_pos h2]
          · rw [if_neg h2]
            by_cases h3 : d ∉ v
            · rw [if_pos h3]
              rcases hd : detectCycleDFS g 0 d v r p with ⟨res, vr, rr⟩
              have hv : v ⊆ vr := by
                have := hdfs d v r p
                rw [hd] at this
                exact this
              cases res with
              | some c =>
                simp only [hd]
                exact hv
              | none =>
                simp only [hd]
                exact hv.trans (ih vr rr p)
            · rw [if_neg h3]; exact ih v r p
    exact ⟨hdfs, hloop⟩
  | succ f ihf =>
    have hdfs : ∀ n v r p,
        v ⊆ (detectCycleDFS g (f + 1) n v r p).2.1 := by
      intro n v r p
      rw [detectCycleDFS]
      cases hget : TaskGraph.get g n with
      | none => simp only [hget]; exact Finset.subset_insert n v
      | some task =>
        simp only [hget]
        rcases hloop : dfsDeps g f task.dependsOn (insert n v) (insert n r)
            (p ++ [n]) with ⟨res, vr, rr⟩
        have hv : insert n v ⊆ vr := by
          have := ihf.2 task.dependsOn (insert n v) (insert n r) (p ++ [n])
          rw [hloop] at this
          exact this
        cases res with
        | some c =>
          simp only
          exact (Finset.subset_insert n v).trans hv
        | none =>
          simp only
          exact (Finset.subset_insert n v).trans hv
    have hloop : ∀ deps v r p,
        v ⊆ (dfsDeps g (f + 1) deps v r p).2.1 := by
      intro deps
      induction deps with
      | nil => intro v r p; rw [dfsDeps]
      | cons d rest ih =>
        intro v r p
        rw [dfsDeps]
        by_cases h1 : (g.get d).isSome = false
        · rw [if_pos h1]; exact ih v r p
        · rw [if_neg h1]
          by_cases h2 : d ∈ r ∧ p.indexOf d < p.length
          · rw [if_pos h2]
          · rw [if_neg h2]
            by_cases h3 : d ∉ v
            · rw [if_pos h3]
              rcases hd : detectCycleDFS g (f + 1) d v r p with ⟨res, vr, rr⟩
              have hv : v ⊆ vr := by
                have := hdfs d v r p
                rw [hd] at this
                exact this
              cases res with
              | some c =>
                simp only [hd]
                exact hv
              | none =>
                simp only [hd]
                exact hv.trans (ih vr rr p)
            · rw [if_neg h3]; exact ih v r p
    exact ⟨hdfs, hloop⟩

/-! Branch equations for the DFS, used throughout the proofs. -/

theorem detectCycleDFS_zero (g : TaskGraph) (n : String) (v r : Finset String)
    (p : List String) : detectCycleDFS g 0 n v r p = (none, v, r) := by
  rw [detectCycleDFS]

theorem detectCycleDFS_succ_none (g : TaskGraph) (f : Nat) (n : String)
    (v r : Finset String) (p : List String) (hget : g.get n = none) :
    detectCycleDFS g (f + 1) n v r p =
      (none, insert n v, (insert n r).erase n) := by
  rw [detectCycleDFS, hget]

theorem detectCycleDFS_succ_some (g : TaskGraph) (f : Nat) (n : String)
    (v r : Finset String) (p : List String) (task : Task)
    (hget : g.get n = some task) :
    detectCycleDFS g (f + 1) n v r p =
      match dfsDeps g f task.dependsOn (insert n v) (insert n r) (p ++ [n]) with
      | (some c, vv, rr) => (some c, vv, rr)
      | (none, vv, rr) => (none, vv, rr.erase n) := by
  rw [detectCycleDFS, hget]

theorem dfsDeps_nil (g : TaskGraph) (f : Nat) (v r : Finset String)
    (p : List String) : dfsDeps g f [] v r p = (none, v, r) := by
  rw [dfsDeps]

theorem dfsDeps_cons_skip (g : TaskGraph) (f : Nat) (d : String)
    (rest : List String) (v r : Finset String) (p : List String)
    (h1 : (g.get d).isSome = false) :
    dfsDeps g f (d :: rest) v r p = dfsDeps g f rest v r p := by
  rw [dfsDeps, if_pos h1]

theorem dfsDeps_cons_cycle (g : TaskGraph) (f : Nat) (d : String)
    (rest : List String) (v r : Finset String) (p : List String)
    (h1 : ¬ (g.get d).isSome = false)
    (h2 : d ∈ r ∧ p.indexOf d < p.length) :
    dfsDeps g f (d :: rest) v r p =
      (some (p.drop (p.indexOf d) ++ [d]), v, r) := by
  rw [dfsDeps, if_neg h1, if_pos h2]

theorem dfsDeps_cons_rec (g : TaskGraph) (f : Nat) (d : String)
    (rest : List String) (v r : Finset String) (p : List String)
    (h1 : ¬ (g.get d).isSome = false)
    (h2 : ¬ (d ∈ r ∧ p.indexOf d < p.length)) (h3 : d ∉ v) :
    dfsDeps g f (d :: rest) v r p =
      match detectCycleDFS g f d v r p with
      | (some c, vv, rr) => (some c, vv, rr)
      | (none, vv, rr) => dfsDeps g f rest vv rr p := by
  rw [dfsDeps, if_neg h1, if_neg h2, if_pos h3]

theorem dfsDeps_cons_visited (g : TaskGraph) (f : Nat) (d : String)
    (rest : List String) (v r : Finset String) (p : List String)
    (h1 : ¬ (g.get d).isSome = false)
    (h2 : ¬ (d ∈ r ∧ p.indexOf d < p.length)) (h3 : ¬ d ∉ v) :
    dfsDeps g f (d :: rest) v r p = dfsDeps g f rest v r p := by
  rw [dfsDeps, if_neg h1, if_neg h2, if_neg h3]

/-- Stack restoration: a cycle-free return leaves the recursion stack as it
was (every insertion is popped). -/
theorem dfs_restore (g : TaskGraph) (fuel : Nat) :
    (∀ n v r p v' r', r ⊆ v → n ∉ v →
        detectCycleDFS g fuel n v r p = (none, v', r') → r' = r)
      ∧ (∀ deps v r p v' r', r ⊆ v →
          dfsDeps g fuel deps v r p = (none, v', r') → r' = r) := by
  induction fuel with
  | zero =>
    have hdfs : ∀ n v r p v' r', r ⊆ v → n ∉ v →
        detectCycleDFS g 0 n v r p = (none, v', r') → r' = r := by
      intro n v r p v' r' _ _ h
      rw [detectCycleDFS_zero] at h
      simp only [Prod.mk.injEq] at h
      exact h.2.2.symm
    have hloop : ∀ deps v r p v' r', r ⊆ v →
        dfsDeps g 0 deps v r p = (none, v', r') → r' = r := by
      intro deps
      induction deps with
      | nil =>
        intro v r p v' r' _ h
        rw [dfsDeps_nil] at h
        simp only [Prod.mk.injEq] at h
        exact h.2.2.symm
      | cons d rest ih =>
        intro v r p v' r' hsub h
        by_cases h1 : (g.get d).isSome = false
        · rw [dfsDeps_cons_skip g 0 d rest v r p h1] at h
          exact ih v r p v' r' hsub h
        · by_cases h2 : d ∈ r ∧ p.indexOf d < p.length
          · rw [dfsDeps_cons_cycle g 0 d rest v r p h1 h2] at h
            simp at h
          · by_cases h3 : d ∉ v
            · rw [dfsDeps_cons_rec g 0 d rest v r p h1 h2 h3] at h
              rcases hd : detectCycleDFS g 0 d v r p with ⟨res, vr, rr⟩
              rw [hd] at h
              cases res with
              | some c => simp at h
              | none =>
                simp only at h
                have hrr : rr = r := hdfs d v r p vr rr hsub h3 hd
                have hvvr : v ⊆ vr := by
                  have := (dfs_mono g 0).1 d v r p
                  rw [hd] at this
                  exact this
                rw [hrr] at h
                exact ih vr r p v' r' (hsub.trans hvvr) h
            · rw [dfsDeps_cons_visited g 0 d rest v r p h1 h2 h3] at h
              exact ih v r p v' r' hsub h
    exact ⟨hdfs, hloop⟩
  | succ f ihf =>
    have hdfs : ∀ n v r p v' r', r ⊆ v → n ∉ v →
        detectCycleDFS g (f + 1) n v r p = (none, v', r') → r' = r := by
      intro n v r p v' r' hsub hnv h
      have hnr : n ∉ r := fun hm => hnv (hsub hm)
      cases hget : TaskGraph.get g n with
      | none =>
        rw [detectCycleDFS_succ_none g f n v r p hget] at h
        simp only [Prod.mk.injEq] at h
        rw [← h.2.2, Finset.erase_insert hnr]
      | some task =>
        rw [detectCycleDFS_succ_some g f n v r p task hget] at h
        rcases hl : dfsDeps g f task.dependsOn (insert n v) (insert n r)
            (p ++ [n]) with ⟨res, vr, rr⟩
        rw [hl] at h
        cases res with
        | some c => simp at h
        | none =>
          simp only [Prod.mk.injEq] at h
          have hrr : rr = insert n r :=
            ihf.2 task.dependsOn (insert n v) (insert n r) (p ++ [n]) vr rr
              (Finset.insert_subset_insert n hsub) hl
          rw [← h.2.2, hrr, Finset.erase_insert hnr]
    have hloop : ∀ deps v r p v' r', r ⊆ v →
        dfsDeps g (f + 1) deps v r p = (none, v', r') → r' = r := by
      intro deps
      induction deps with
      | nil =>
        intro v r p v' r' _ h
        rw [dfsDeps_nil] at h
        simp only [Prod.mk.injEq] at h
        exact h.2.2.symm
      | cons d rest ih =>
        intro v r p v' r' hsub h
        by_cases h1 : (g.get d).isSome = false
        · rw [dfsDeps_cons_skip g (f + 1) d rest v r p h1] at h
          exact ih v r p v' r' hsub h
        · by_cases h2 : d ∈ r ∧ p.indexOf d < p.length
          · rw [dfsDeps_cons_cycle g (f + 1) d rest v r p h1 h2] at h
            simp at h
          · by_cases h3 : d ∉ v
            · rw [dfsDeps_cons_rec g (f + 1) d rest v r p h1 h2 h3] at h
              rcases hd : detectCycleDFS g (f + 1) d v r p with ⟨res, vr, rr⟩
              rw [hd] at h
              cases res with
              | some c => simp at h
              | none =>
                simp only at h
                have hrr : rr = r := hdfs d v r p vr rr hsub h3 hd
                have hvvr : v ⊆ vr := by
                  have := (dfs_mono g (f + 1)).1 d v r p
                  rw [hd] at this
                  exact this
                rw [hrr] at h
                exact ih vr r p v' r' (hsub.trans hvvr) h
            · rw [dfsDeps_cons_visited g (f + 1) d rest v r p h1 h2 h3] at h
              exact ih v r p v' r' hsub h
    exact ⟨hdfs, hloop⟩

theorem getLast?_drop_of_lt {α : Type} (l : List α) (k : Nat)
    (h : k < l.length) : (l.drop k).getLast? = l.getLast? := by
  conv_rhs => rw [← List.take_append_drop k l]
  rw [List.getLast?_append_of_ne_nil]
  intro hnil
  rw [List.drop_eq_nil_iff] at hnil
  omega

/-- Soundness: any cycle the DFS reports is a genuine closed dependency
walk — at least two entries, equal first and last ids, adjacent pairs
in-graph dependency edges. -/
theorem dfs_sound (g : TaskGraph) (fuel : Nat) :
    (∀ n v r p c v' r', r ⊆ v →
        List.Chain' (EdgeB g) (p ++ [n]) →
        (∀ x, x ∈ r ↔ x ∈ p) →
        (g.get n).isSome = true →
        detectCycleDFS g fuel n v r p = (some c, v', r') →
        IsCycleReport g c)
      ∧ (∀ deps v r p c v' r' task nlast, r ⊆ v →
          List.Chain' (EdgeB g) p →
          p.getLast? = some nlast →
          g.get nlast = some task →
          (∀ d ∈ deps, d ∈ task.dependsOn) →
          (∀ x, x ∈ r ↔ x ∈ p) →
          dfsDeps g fuel deps v r p = (some c, v', r') →
          IsCycleReport g c) := by
  induction fuel with
  | zero =>
    have hdfs : ∀ n v r p c v' r', r ⊆ v →
        List.Chain' (EdgeB g) (p ++ [n]) →
        (∀ x, x ∈ r ↔ x ∈ p) →
        (g.get n).isSome = true →
        detectCycleDFS g 0 n v r p = (some c, v', r') →
        IsCycleReport g c := by
      intro n v r p c v' r' _ _ _ _ h
      rw [detectCycleDFS_zero] at h
      simp at h
    have hloop : ∀ deps v r p c v' r' task nlast, r ⊆ v →
        List.Chain' (EdgeB g) p →
        p.getLast? = some nlast →
        g.get nlast = some task →
        (∀ d ∈ deps, d ∈ task.dependsOn) →
        (∀ x, x ∈ r ↔ x ∈ p) →
        dfsDeps g 0 deps v r p = (some c, v', r') →
        IsCycleReport g c := by
      intro deps
      induction deps with
      | nil =>
        intro v r p c v' r' task nlast _ _ _ _ _ _ h
        rw [dfsDeps_nil] at h
        simp at h
      | cons d rest ih =>
        intro v r p c v' r' task nlast hsub hchain hlast htask hdeps hrs h
        by_cases h1 : (g.get d).isSome = false
        · rw [dfsDeps_cons_skip g 0 d rest v r p h1] at h
          exact ih v r p c v' r' task nlast hsub hchain hlast htask
            (fun x hx => hdeps x (List.mem_cons_of_mem d hx)) hrs h
        · have hdin : (g.get d).isSome = true := by
            cases hval : (g.get d).isSome with
            | true => rfl
            | false => exact absurd hval h1
          have hedge : EdgeB g nlast d :=
            ⟨task, htask, hdeps d (List.mem_cons_self d rest), hdin⟩
          by_cases h2 : d ∈ r ∧ p.indexOf d < p.length
          · rw [dfsDeps_cons_cycle g 0 d rest v r p h1 h2] at h
            simp only [Prod.mk.injEq] at h
            obtain ⟨hc, -, -⟩ := h
            injection hc with hc
            subst hc
            have hk := h2.2
            have hdropne : p.drop (p.indexOf d) ≠ [] := by
              intro hnil
              rw [List.drop_eq_nil_iff] at hnil
              omega
            refine ⟨?_, ?_, ?_⟩
            · rw [List.length_append, List.length_drop]
              simp only [List.length_cons, List.length_nil]
              omega
            · rw [List.head?_append_of_ne_nil _ hdropne,
                List.head?_drop, List.getElem?_eq_getElem hk,
                List.getElem_indexOf hk,
                List.getLast?_append_of_ne_nil _ (by simp)]
              rfl
            · refine List.Chain'.append (hchain.drop _) (by simp) ?_
              intro x hx y hy
              rw [getLast?_drop_of_lt p _ hk, hlast] at hx
              simp only [Option.mem_def, Option.some_inj] at hx
              simp only [List.head?_cons, Option.mem_def, Option.some_inj] at hy
              rw [← hx, ← hy]
              exact hedge
          · by_cases h3 : d ∉ v
            · rw [dfsDeps_cons_rec g 0 d rest v r p h1 h2 h3] at h
              rcases hd : detectCycleDFS g 0 d v r p with ⟨res, vr, rr⟩
              rw [hd] at h
              cases res with
              | some c0 =>
                simp only [Prod.mk.injEq] at h
                obtain ⟨hc, -, -⟩ := h
                injection hc with hc
                subst hc
                exact hdfs d v r p c0 vr rr hsub
                  (List.Chain'.append hchain (by simp)
                    (fun x hx y hy => by
                      rw [hlast] at hx
                      simp only [Option.mem_def, Option.some_inj] at hx
                      simp only [List.head?_cons, Option.mem_def,
                        Option.some_inj] at hy
                      rw [← hx, ← hy]
                      exact hedge)) hrs hdin hd
              | none =>
                simp only at h
                have hrr : rr = r := (dfs_restore g 0).1 d v r p vr rr hsub h3 hd
                have hvvr : v ⊆ vr := by
                  have := (dfs_mono g 0).1 d v r p
                  rw [hd] at this
                  exact this
                rw [hrr] at h
                exact ih vr r p c v' r' task nlast (hsub.trans hvvr) hchain
                  hlast htask
                  (fun x hx => hdeps x (List.mem_cons_of_mem d hx)) hrs h
            · rw [dfsDeps_cons_visited g 0 d rest v r p h1 h2 h3] at h
              exact ih v r p c v' r' task nlast hsub hchain hlast htask
                (fun x hx => hdeps x (List.mem_cons_of_mem d hx)) hrs h
    exact ⟨hdfs, hloop⟩
  | succ f ihf =>
    have hdfs : ∀ n v r p c v' r', r ⊆ v →
        List.Chain' (EdgeB g) (p ++ [n]) →
        (∀ x, x ∈ r ↔ x ∈ p) →
        (g.get n).isSome = true →
        detectCycleDFS g (f + 1) n v r p = (some c, v', r') →
        IsCycleReport g c := by
      intro n v r p c v' r' hsub hchain hrs hsome h
      cases hget : TaskGraph.get g n with
      | none => rw [hget] at hsome; simp at hsome
      | some task =>
        rw [detectCycleDFS_succ_some g f n v r p task hget] at h
        rcases hl : dfsDeps g f task.dependsOn (insert n v) (insert n r)
            (p ++ [n]) with ⟨res, vr, rr⟩
        rw [hl] at h
        cases res with
        | some c0 =>
          simp only [Prod.mk.injEq] at h
          obtain ⟨hc, -, -⟩ := h
          injection hc with hc
          subst hc
          refine ihf.2 task.dependsOn (insert n v) (insert n r) (p ++ [n])
            c0 vr rr task n (Finset.insert_subset_insert n hsub) hchain
            (by rw [List.getLast?_append_of_ne_nil _ (by simp)]; rfl) hget
            (fun d hd => hd) (fun x => ?_) hl
          rw [Finset.mem_insert, List.mem_append]
          simp only [List.mem_cons, List.mem_nil_iff, or_false]
          rw [hrs x]
          tauto
        | none => simp at h
    have hloop : ∀ deps v r p c v' r' task nlast, r ⊆ v →
        List.Chain' (EdgeB g) p →
        p.getLast? = some nlast →
        g.get nlast = some task →
        (∀ d ∈ deps, d ∈ task.dependsOn) →
        (∀ x, x ∈ r ↔ x ∈ p) →
        dfsDeps g (f + 1) deps v r p = (some c, v', r') →
        IsCycleReport g c := by
      intro deps
      induction deps with
      | nil =>
        intro v r p c v' r' task nlast _ _ _ _ _ _ h
        rw [dfsDeps_nil] at h
        simp at h
      | cons d rest ih =>
        intro v r p c v' r' task nlast hsub hchain hlast htask hdeps hrs h
        by_cases h1 : (g.get d).isSome = false
        · rw [dfsDeps_cons_skip g (f + 1) d rest v r p h1] at h
          exact ih v r p c v' r' task nlast hsub hchain hlast htask
            (fun x hx => hdeps x (List.mem_cons_of_mem d hx)) hrs h
        · have hdin : (g.get d).isSome = true := by
            cases hval : (g.get d).isSome with
            | true => rfl
            | false => exact absurd hval h1
          have hedge : EdgeB g nlast d :=
            ⟨task, htask, hdeps d (List.mem_cons_self d rest), hdin⟩
          by_cases h2 : d ∈ r ∧ p.indexOf d < p.length
          · rw [dfsDeps_cons_cycle g (f + 1) d rest v r p h1 h2] at h
            simp only [Prod.mk.injEq] at h
            obtain ⟨hc, -, -⟩ := h
            injection hc with hc
            subst hc
            have hk := h2.2
            have hdropne : p.drop (p.indexOf d) ≠ [] := by
              intro hnil
              rw [List.drop_eq_nil_iff] at hnil
              omega
            refine ⟨?_, ?_, ?_⟩
            · rw [List.length_append, List.length_drop]
              simp only [List.length_cons, List.length_nil]
              omega
            · rw [List.head?_append_of_ne_nil _ hdropne,
                List.head?_drop, List.getElem?_eq_getElem hk,
                List.getElem_indexOf hk,
                List.getLast?_append_of_ne_nil _ (by simp)]
              rfl
            · refine List.Chain'.append (hchain.drop _) (by simp) ?_
              intro x hx y hy
              rw [getLast?_drop_of_lt p _ hk, hlast] at hx
              simp only [Option.mem_def, Option.some_inj] at hx
              simp only [List.head?_cons, Option.mem_def, Option.some_inj] at hy
              rw [← hx, ← hy]
              exact hedge
          · by_cases h3 : d ∉ v
            · rw [dfsDeps_cons_rec g (f + 1) d rest v r p h1 h2 h3] at h
              rcases hd : detectCycleDFS g (f + 1) d v r p with ⟨res, vr, rr⟩
              rw [hd] at h
              cases res with
              | some c0 =>
                simp only [Prod.mk.injEq] at h
                obtain ⟨hc, -, -⟩ := h
                injection hc with hc
                subst hc
                exact hdfs d v r p c0 vr rr hsub
                  (List.Chain'.append hchain (by simp)
                    (fun x hx y hy => by
                      rw [hlast] at hx
                      simp only [Option.mem_def, Option.some_inj] at hx
                      simp only [List.head?_cons, Option.mem_def,
                        Option.some_inj] at hy
                      rw [← hx, ← hy]
                      exact hedge)) hrs hdin hd
              | none =>
                simp only at h
                have hrr : rr = r :=
                  (dfs_restore g (f + 1)).1 d v r p vr rr hsub h3 hd
                have hvvr : v ⊆ vr := by
                  have := (dfs_mono g (f + 1)).1 d v r p
                  rw [hd] at this
                  exact this
                rw [hrr] at h
                exact ih vr r p c v' r' task nlast (hsub.trans hvvr) hchain
                  hlast htask
                  (fun x hx => hdeps x (List.mem_cons_of_mem d hx)) hrs h
            · rw [dfsDeps_cons_visited g (f + 1) d rest v r p h1 h2 h3] at h
              exact ih v r p c v' r' task nlast hsub hchain hlast htask
                (fun x hx => hdeps x (List.mem_cons_of_mem d hx)) hrs h
    exact ⟨hdfs, hloop⟩

/-! Measure lemmas for the DFS fuel. -/

theorem filter_length_le_of_imp {α : Type} (l : List α) (p q : α → Bool)
    (hpq : ∀ x, p x = true → q x = true) :
    (l.filter p).length ≤ (l.filter q).length := by
  induction l with
  | nil => simp
  | cons a l ih =>
    by_cases hp : p a = true
    · rw [List.filter_cons_of_pos hp, List.filter_cons_of_pos (hpq a hp)]
      simpa using ih
    · rw [List.filter_cons_of_neg (by simpa using hp)]
      by_cases hq : q a = true
      · rw [List.filter_cons_of_pos hq]
        exact ih.trans (by simp)
      · rw [List.filter_cons_of_neg (by simpa using hq)]
        exact ih

theorem filter_length_lt_of_witness {α : Type} (l : List α) (p q : α → Bool)
    (hpq : ∀ x, p x = true → q x = true) (a : α) (ha : a ∈ l)
    (hqa : q a = true) (hpa : p a = false) :
    (l.filter p).length < (l.filter q).length := by
  induction l with
  | nil => simp at ha
  | cons b l ih =>
    rcases List.mem_cons.mp ha with hb | hb
    · subst hb
      rw [List.filter_cons_of_pos hqa, List.filter_cons_of_neg (by simp [hpa])]
      have := filter_length_le_of_imp l p q hpq
      simpa using Nat.lt_succ_of_le this
    · by_cases hp : p b = true
      · rw [List.filter_cons_of_pos hp, List.filter_cons_of_pos (hpq b hp)]
        simpa using ih hb
      · rw [List.filter_cons_of_neg (by simpa using hp)]
        by_cases hq : q b = true
        · rw [List.filter_cons_of_pos hq]
          exact (ih hb).trans (by simp)
        · rw [List.filter_cons_of_neg (by simpa using hq)]
          exact ih hb

theorem unvisitedCount_le (g : TaskGraph) (v : Finset String) :
    unvisitedCount g v ≤ g.length := by
  unfold unvisitedCount
  calc ((gids g).filter (fun i => decide (i ∉ v))).length
      ≤ (gids g).length := List.length_filter_le _ _
    _ = g.length := by unfold gids; rw [List.length_map]

theorem unvisitedCount_mono (g : TaskGraph) {v w : Finset String}
    (h : v ⊆ w) : unvisitedCount g w ≤ unvisitedCount g v := by
  unfold unvisitedCount
  apply filter_length_le_of_imp
  intro x hx
  simp only [decide_eq_true_eq] at *
  exact fun hxv => hx (h hxv)

theorem unvisitedCount_insert_lt (g : TaskGraph) {a : String}
    {v : Finset String} (ha : a ∈ gids g) (hav : a ∉ v) :
    unvisitedCount g (insert a v) < unvisitedCount g v := by
  unfold unvisitedCount
  apply filter_length_lt_of_witness _ _ _ ?_ a ha
  · simpa using hav
  · simp
  · intro x hx
    simp only [decide_eq_true_eq, Finset.mem_insert] at *
    exact fun hxv => hx (Or.inr hxv)

theorem mem_gids_of_isSome {g : TaskGraph} {n : String}
    (h : (g.get n).isSome = true) : n ∈ gids g := by
  unfold TaskGraph.get at h
  cases hf : List.find? (fun t => t.id = n) g with
  | none => rw [hf] at h; simp at h
  | some t =>
    have hmem := List.mem_of_find?_eq_some hf
    have hid : t.id = n := by simpa using List.find?_some hf
    unfold gids
    rw [← hid]
    exact List.mem_map_of_mem _ hmem

theorem blackInv_insert_both (g : TaskGraph) {v r : Finset String}
    (n : String) (hnv : n ∉ v) (h : BlackInv g v r) :
    BlackInv g (insert n v) (insert n r) := by
  rcases h with ⟨rank, hrank⟩
  refine ⟨rank, ?_⟩
  intro u hu w hw
  rw [Finset.mem_sdiff, Finset.mem_insert, Finset.mem_insert] at hu
  have hun : u ≠ n := by
    intro he
    exact hu.2 (Or.inl he)
  have hu' : u ∈ v \ r := by
    rw [Finset.mem_sdiff]
    exact ⟨hu.1.resolve_left hun, fun hr => hu.2 (Or.inr hr)⟩
  rcases hrank u hu' w hw with ⟨hwb, hlt⟩
  rw [Finset.mem_sdiff] at hwb
  refine ⟨?_, hlt⟩
  rw [Finset.mem_sdiff, Finset.mem_insert, Finset.mem_insert]
  have hwn : w ≠ n := by
    intro he
    subst he
    exact hnv hwb.1
  exact ⟨Or.inr hwb.1, fun hc => hc.elim (fun he => hwn he) hwb.2⟩

theorem le_foldr_max (l : List String) (f : String → Nat) (x : String)
    (hx : x ∈ l) : f x ≤ l.foldr (fun y m => max (f y) m) 0 := by
  induction l with
  | nil => simp at hx
  | cons a l ih =>
    rcases List.mem_cons.mp hx with h | h
    · subst h
      simp only [List.foldr_cons]
      exact Nat.le_max_left _ _
    · simp only [List.foldr_cons]
      exact (ih h).trans (Nat.le_max_right _ _)

theorem bumpRank_self (rank0 : String → Nat) (n : String) (b : Nat) :
    bumpRank rank0 n b n = b + 1 := if_pos rfl

theorem bumpRank_ne (rank0 : String → Nat) (n : String) (b : Nat)
    {x : String} (h : x ≠ n) : bumpRank rank0 n b x = rank0 x := if_neg h

/-- Completeness invariant: a cycle-free DFS return restores the stack,
grows the visited set to cover the node, and preserves the black-rank
certificate; the dependency loop additionally blackens every in-graph
dependency it was given. -/
theorem dfs_complete (g : TaskGraph) (fuel : Nat) :
    (∀ n v r p v' r',
        unvisitedCount g v < fuel →
        n ∉ v → r ⊆ v →
        (∀ x, x ∈ r ↔ x ∈ p) →
        (g.get n).isSome = true →
        BlackInv g v r →
        detectCycleDFS g fuel n v r p = (none, v', r') →
        r' = r ∧ v ⊆ v' ∧ n ∈ v' ∧ BlackInv g v' r')
      ∧ (∀ deps v r p v' r',
          unvisitedCount g v < fuel →
          r ⊆ v →
          (∀ x, x ∈ r ↔ x ∈ p) →
          BlackInv g v r →
          dfsDeps g fuel deps v r p = (none, v', r') →
          r' = r ∧ v ⊆ v' ∧ BlackInv g v' r' ∧
            (∀ d ∈ deps, (g.get d).isSome = true → d ∈ v' \ r')) := by
  induction fuel with
  | zero =>
    exact ⟨fun n v r p v' r' hf => absurd hf (Nat.not_lt_zero _),
           fun deps v r p v' r' hf => absurd hf (Nat.not_lt_zero _)⟩
  | succ f ihf =>
    have hdfs : ∀ n v r p v' r',
        unvisitedCount g v < f + 1 →
        n ∉ v → r ⊆ v →
        (∀ x, x ∈ r ↔ x ∈ p) →
        (g.get n).isSome = true →
        BlackInv g v r →
        detectCycleDFS g (f + 1) n v r p = (none, v', r') →
        r' = r ∧ v ⊆ v' ∧ n ∈ v' ∧ BlackInv g v' r' := by
      intro n v r p v' r' hf hnv hsub hrs hsome hinv h
      have hnr : n ∉ r := fun hm => hnv (hsub hm)
      have hng : n ∈ gids g := mem_gids_of_isSome hsome
      cases hget : TaskGraph.get g n with
      | none => rw [hget] at hsome; simp at hsome
      | some task =>
        rw [detectCycleDFS_succ_some g f n v r p task hget] at h
        rcases hl : dfsDeps g f task.dependsOn (insert n v) (insert n r)
            (p ++ [n]) with ⟨res, vr, rr⟩
        rw [hl] at h
        cases res with
        | some c => simp at h
        | none =>
          simp only [Prod.mk.injEq] at h
          obtain ⟨-, hvv, hrr⟩ := h
          have hfl : unvisitedCount g (insert n v) < f := by
            have := unvisitedCount_insert_lt g hng hnv
            omega
          have hrs' : ∀ x, x ∈ insert n r ↔ x ∈ p ++ [n] := by
            intro x
            rw [Finset.mem_insert, List.mem_append, hrs x]
            simp only [List.mem_cons, List.not_mem_nil, or_false]
            tauto
          rcases ihf.2 task.dependsOn (insert n v) (insert n r) (p ++ [n])
              vr rr hfl (Finset.insert_subset_insert n hsub) hrs'
              (blackInv_insert_both g n hnv hinv) hl with
            ⟨hrr', hvsub, hbinv, hdeps⟩
          subst hrr'
          have hnin : n ∈ vr := hvsub (Finset.mem_insert_self n v)
          subst hvv
          rw [← hrr, Finset.erase_insert hnr]
          refine ⟨rfl, (Finset.subset_insert n v).trans hvsub, hnin, ?_⟩
          rcases hbinv with ⟨rank0, hrank0⟩
          refine ⟨bumpRank rank0 n
            (task.dependsOn.foldr (fun y m => max (rank0 y) m) 0), ?_⟩
          intro u hu w hw
          rw [Finset.mem_sdiff] at hu
          by_cases hun : u = n
          · subst hun
            rcases hw with ⟨t, ht, hwdep, hwsome⟩
            rw [hget] at ht
            injection ht with ht
            subst ht
            have hwv := hdeps w hwdep hwsome
            rw [Finset.mem_sdiff, Finset.mem_insert] at hwv
            have hwn : w ≠ u := fun he => hwv.2 (Or.inl he)
            constructor
            · rw [Finset.mem_sdiff]
              exact ⟨hwv.1, fun hc => hwv.2 (Or.inr hc)⟩
            · rw [bumpRank_ne rank0 u _ hwn, bumpRank_self]
              exact Nat.lt_succ_of_le (le_foldr_max task.dependsOn rank0 w hwdep)
          · have hu' : u ∈ vr \ insert n r := by
              rw [Finset.mem_sdiff, Finset.mem_insert]
              exact ⟨hu.1, fun hc => hc.elim hun hu.2⟩
            rcases hrank0 u hu' w hw with ⟨hwb, hlt⟩
            rw [Finset.mem_sdiff, Finset.mem_insert] at hwb
            have hwn : w ≠ n := fun he => hwb.2 (Or.inl he)
            constructor
            · rw [Finset.mem_sdiff]
              exact ⟨hwb.1, fun hc => hwb.2 (Or.inr hc)⟩
            · rw [bumpRank_ne rank0 n _ hwn, bumpRank_ne rank0 n _ hun]
              exact hlt
    have hloop : ∀ deps v r p v' r',
        unvisitedCount g v < f + 1 →
        r ⊆ v →
        (∀ x, x ∈ r ↔ x ∈ p) →
        BlackInv g v r →
        dfsDeps g (f + 1) deps v r p = (none, v', r') →
        r' = r ∧ v ⊆ v' ∧ BlackInv g v' r' ∧
          (∀ d ∈ deps, (g.get d).isSome = true → d ∈ v' \ r') := by
      intro deps
      induction deps with
      | nil =>
        intro v r p v' r' _ _ _ hinv h
        rw [dfsDeps_nil] at h
        simp only [Prod.mk.injEq] at h
        obtain ⟨-, hv, hr⟩ := h
        subst hv; subst hr
        exact ⟨rfl, subset_rfl, hinv, by simp⟩
      | cons d rest ih =>
        intro v r p v' r' hf hsub hrs hinv h
        by_cases h1 : (g.get d).isSome = false
        · rw [dfsDeps_cons_skip g (f + 1) d rest v r p h1] at h
          rcases ih v r p v' r' hf hsub hrs hinv h with ⟨ha, hb, hc, hd⟩
          refine ⟨ha, hb, hc, ?_⟩
          intro x hx hxs
          rcases List.mem_cons.mp hx with he | he
          · subst he
            rw [h1] at hxs
            simp at hxs
          · exact hd x he hxs
        · have hdin : (g.get d).isSome = true := by
            cases hval : (g.get d).isSome with
            | true => rfl
            | false => exact absurd hval h1
          by_cases h2 : d ∈ r ∧ p.indexOf d < p.length
          · rw [dfsDeps_cons_cycle g (f + 1) d rest v r p h1 h2] at h
            simp at h
          · by_cases h3 : d ∉ v
            · rw [dfsDeps_cons_rec g (f + 1) d rest v r p h1 h2 h3] at h
              rcases hd : detectCycleDFS g (f + 1) d v r p with ⟨res, vr, rr⟩
              rw [hd] at h
              cases res with
              | some c => simp at h
              | none =>
                simp only at h
                rcases hdfs d v r p vr rr hf h3 hsub hrs hdin hinv hd with
                  ⟨hrr, hvvr, hdin', hbinv⟩
                rw [hrr] at h hbinv
                have hfl : unvisitedCount g vr < f + 1 :=
                  lt_of_le_of_lt (unvisitedCount_mono g hvvr) hf
                rcases ih vr r p v' r' hfl (hsub.trans hvvr) hrs hbinv h with
                  ⟨ha, hb, hc, hrest⟩
                refine ⟨ha, hvvr.trans hb, hc, ?_⟩
                intro x hx hxs
                rcases List.mem_cons.mp hx with he | he
                · subst he
                  rw [Finset.mem_sdiff, ha]
                  refine ⟨hb hdin', fun hcr => ?_⟩
                  exact h3 (hsub hcr)
                · exact hrest x he hxs
            · rw [dfsDeps_cons_visited g (f + 1) d rest v r p h1 h2 h3] at h
              rcases ih v r p v' r' hf hsub hrs hinv h with ⟨ha, hb, hc, hrest⟩
              refine ⟨ha, hb, hc, ?_⟩
              intro x hx hxs
              rcases List.mem_cons.mp hx with he | he
              · subst he
                rw [Finset.mem_sdiff, ha]
                refine ⟨hb (by simpa using h3), fun hcr => ?_⟩
                have hp : x ∈ p := (hrs x).mp hcr
                exact h2 ⟨hcr, List.indexOf_lt_length.mpr hp⟩
              · exact hrest x he hxs
    exact ⟨hdfs, hloop⟩

theorem get_isSome_of_mem_gids {g : TaskGraph} {n : String}
    (h : n ∈ gids g) : (g.get n).isSome = true := by
  unfold gids at h
  rcases List.mem_map.mp h with ⟨t, htg, hid⟩
  unfold TaskGraph.get
  cases hf : List.find? (fun t => t.id = n) g with
  | none =>
    rw [List.find?_eq_none] at hf
    exact absurd (by simpa using hid) (by simpa using hf t htg)
  | some t' => rfl

theorem detectCyclesLoop_sound (g : TaskGraph) (fuel : Nat) :
    ∀ ids visited c, (∀ i ∈ ids, i ∈ gids g) →
      detectCyclesLoop g fuel ids visited ∅ = some c →
      IsCycleReport g c := by
  intro ids
  induction ids with
  | nil => intro visited c _ h; rw [detectCyclesLoop] at h; simp at h
  | cons id rest ih =>
    intro visited c hids h
    rw [detectCyclesLoop] at h
    by_cases hv : id ∉ visited
    · rw [if_pos hv] at h
      rcases hd : detectCycleDFS g fuel id visited ∅ [] with ⟨res, vr, rr⟩
      rw [hd] at h
      cases res with
      | some c0 =>
        simp only [Option.some_inj] at h
        rw [← h]
        exact (dfs_sound g fuel).1 id visited ∅ [] c0 vr rr
          (Finset.empty_subset _) (by simp) (by simp)
          (get_isSome_of_mem_gids (hids id (List.mem_cons_self id rest))) hd
      | none =>
        simp only at h
        have hrr : rr = ∅ :=
          (dfs_restore g fuel).1 id visited ∅ [] vr rr
            (Finset.empty_subset _) hv hd
        rw [hrr] at h
        exact ih vr c (fun i hi => hids i (List.mem_cons_of_mem id hi)) h
    · rw [if_neg hv] at h
      exact ih visited c (fun i hi => hids i (List.mem_cons_of_mem id hi)) h

theorem detectCyclesLoop_complete (g : TaskGraph) (fuel : Nat)
    (hfuel : g.length < fuel) :
    ∀ ids visited, (∀ i ∈ ids, i ∈ gids g) →
      BlackInv g visited ∅ →
      detectCyclesLoop g fuel ids visited ∅ = none →
      ∃ v', visited ⊆ v' ∧ BlackInv g v' ∅ ∧ ∀ i ∈ ids, i ∈ v' := by
  intro ids
  induction ids with
  | nil =>
    intro visited _ hinv _
    exact ⟨visited, subset_rfl, hinv, by simp⟩
  | cons id rest ih =>
    intro visited hids hinv h
    rw [detectCyclesLoop] at h
    by_cases hv : id ∉ visited
    · rw [if_pos hv] at h
      rcases hd : detectCycleDFS g fuel id visited ∅ [] with ⟨res, vr, rr⟩
      rw [hd] at h
      cases res with
      | some c0 => simp at h
      | none =>
        simp only at h
        rcases (dfs_complete g fuel).1 id visited ∅ [] vr rr
            (lt_of_le_of_lt (unvisitedCount_le g visited) hfuel) hv
            (Finset.empty_subset _) (by simp)
            (get_isSome_of_mem_gids (hids id (List.mem_cons_self id rest)))
            hinv hd with ⟨hrr, hvsub, hidin, hbinv⟩
        rw [hrr] at h hbinv
        rcases ih vr (fun i hi => hids i (List.mem_cons_of_mem id hi))
            hbinv h with ⟨v', hsub', hinv', hall⟩
        refine ⟨v', hvsub.trans hsub', hinv', ?_⟩
        intro i hi
        rcases List.mem_cons.mp hi with he | he
        · subst he; exact hsub' hidin
        · exact hall i he
    · rw [if_neg hv] at h
      rcases ih visited (fun i hi => hids i (List.mem_cons_of_mem id hi))
          hinv h with ⟨v', hsub', hinv', hall⟩
      refine ⟨v', hsub', hinv', ?_⟩
      intro i hi
      rcases List.mem_cons.mp hi with he | he
      · subst he
        exact hsub' (by simpa using hv)
      · exact hall i he

theorem chain'_rank_getLast (g : TaskGraph) (rank : String → Nat)
    (hrank : ∀ u w, EdgeB g u w → rank w < rank u) :
    ∀ (l : List String) (a b : String), List.Chain' (EdgeB g) (a :: l) →
      l ≠ [] → (a :: l).getLast? = some b → rank b < rank a := by
  intro l
  induction l with
  | nil => intro a b _ hne; exact absurd rfl hne
  | cons x l' ih =>
    intro a b hchain _ hlastb
    rw [List.chain'_cons] at hchain
    cases hl' : l' with
    | nil =>
      subst hl'
      simp only [List.getLast?_cons, List.getLast?_singleton] at hlastb
      simp only [Option.some_inj] at hlastb
      rw [← hlastb]
      exact hrank a x hchain.1
    | cons y l'' =>
      have hblt : rank b < rank x := by
        apply ih x b hchain.2 (by rw [hl']; simp)
        have : (a :: x :: l').getLast? = (x :: l').getLast? := by
          rw [List.getLast?_cons_cons]
        rw [← this]
        exact hlastb
      exact hblt.trans (hrank a x hchain.1)

theorem no_cycle_of_rank (g : TaskGraph) (rank : String → Nat)
    (hrank : ∀ u w, EdgeB g u w → rank w < rank u) (c : List String)
    (hc : IsCycleReport g c) : False := by
  rcases hc with ⟨hlen, hhl, hchain⟩
  cases c with
  | nil => simp at hlen
  | cons a l =>
    cases l with
    | nil => simp at hlen
    | cons x l' =>
      have hhead : (a :: x :: l').head? = some a := rfl
      rw [hhead] at hhl
      have := chain'_rank_getLast g rank hrank (x :: l') a a hchain
        (by simp) hhl.symm
      omega

/-- C1 — `DetectCycles` returns nil iff the dependency graph restricted to
in-graph tasks is acyclic (dependency edges pointing at ids absent from
the graph are skipped, never treated as cycles); and whenever it reports a
cycle, the reported path has equal first and last task ids and every
adjacent pair in the path is a dependency edge between tasks in the
graph. -/
theorem detectCycles_correct (g : TaskGraph) :
    (g.detectCycles = none ↔ g.detectCyclesPath = none)
      ∧ (g.detectCyclesPath = none ↔ ∀ c, ¬ IsCycleReport g c)
      ∧ (∀ c, g.detectCyclesPath = some c → IsCycleReport g c) := by
  have hsound : ∀ c, g.detectCyclesPath = some c → IsCycleReport g c := by
    intro c h
    exact detectCyclesLoop_sound g (g.length + 1) (gids g) ∅ c
      (fun i hi => hi) h
  refine ⟨?_, ⟨?_, ?_⟩, hsound⟩
  · unfold TaskGraph.detectCycles
    cases g.detectCyclesPath <;> simp
  · intro hnone c hc
    rcases detectCyclesLoop_complete g (g.length + 1) (by omega) (gids g) ∅
        (fun i hi => hi)
        ⟨fun _ => 0, by intro u hu; simp at hu⟩ hnone with
      ⟨v', _, ⟨rank, hrank⟩, hall⟩
    apply no_cycle_of_rank g rank ?_ c hc
    intro u w he
    have husome : (g.get u).isSome = true := by
      rcases he with ⟨t, ht, -, -⟩
      rw [ht]
      rfl
    have hu : u ∈ v' \ ∅ := by
      rw [Finset.mem_sdiff]
      exact ⟨hall u (mem_gids_of_isSome husome), Finset.not_mem_empty u⟩
    exact (hrank u hu w he).2
  · intro hacyc
    cases h : g.detectCyclesPath with
    | none => rfl
    | some c => exact absurd (hsound c h) (hacyc c)

/-- Witness for C1: on the two-task cycle `a → b → a` the DFS reports the
path `a, b, a` — first and last ids equal, both steps dependency edges. -/
theorem detectCycles_correct_witness :
    (TaskGraph.detectCyclesPath
        [{ id := "a", status := Status.pending, dependsOn := ["b"] },
         { id := "b", status := Status.pending, dependsOn := ["a"] }] =
      some ["a", "b", "a"])
      ∧ IsCycleReport
          [{ id := "a", status := Status.pending, dependsOn := ["b"] },
           { id := "b", status := Status.pending, dependsOn := ["a"] }]
          ["a", "b", "a"] := by
  have hcomp : TaskGraph.detectCyclesPath
      [{ id := "a", status := Status.pending, dependsOn := ["b"] },
       { id := "b", status := Status.pending, dependsOn := ["a"] }] =
      some ["a", "b", "a"] := by
    simp [TaskGraph.detectCyclesPath, detectCyclesLoop, detectCycleDFS,
      dfsDeps, TaskGraph.get, gids, List.find?, List.indexOf, List.findIdx,
      List.findIdx.go]
  exact ⟨hcomp,
    (detectCycles_correct
      [{ id := "a", status := Status.pending, dependsOn := ["b"] },
       { id := "b", status := Status.pending, dependsOn := ["a"] }]).2.2
      ["a", "b", "a"] hcomp⟩

end Waggle
